import Mathlib

/-!
Verification development for the Lockr embedded key-value store
(an LSM-tree engine written in Go: a write buffer, a write-ahead log,
immutable segment files with Bloom filters and offset indexes, a bounded
recency cache, and an engine orchestrating them).

The Go source is shallowly embedded:

* Go `map[string]string` values (MemTable, WAL recovery map, List results,
  merged compaction entries) become association lists over `String`, updated
  in place through one shared `insertA`; the list order stands for one
  admissible map-iteration order.
* The file system (the data directory, `wal.log`, and `sstable_*.dat`
  files) becomes an explicit `FS` value threaded through every operation.
  `os.Create` succeeds exactly when the parent directory exists, matching
  POSIX behaviour and Go's `os` package.  `time.Now().UnixNano()`, used
  only to generate unique file names, becomes a strictly increasing
  `clock` counter in `FS`.
* Byte offsets into segment files are counted in characters; the writer
  and the reader of the embedding use the same unit, exactly as the Go
  writer and reader both use bytes, so line extraction agrees.
* Engine mutexes are erased: the embedding gives the sequential semantics
  of each operation.  The `go l.triggerCompaction()` dispatch is modelled
  as a separate `compact` step that may run after a flush.
* Fallible Go functions returning `error` become functions returning an
  `Except String` result together with the (possibly mutated) receiver
  state, since Go mutates the receiver even on the error path.
-/

/-! ### Association lists (embedding of Go maps) -/

/-- Lookup in an association list; embeds Go map indexing `m[k]`. -/
def lookupA {α : Type} : List (String × α) → String → Option α
  | [], _ => none
  | (k', a) :: t, k => if k' = k then some a else lookupA t k

/-- Insert-or-replace in an association list; embeds Go map assignment
`m[k] = a`.  An existing binding is replaced in place, a new binding is
appended. -/
def insertA {α : Type} : List (String × α) → String → α → List (String × α)
  | [], k, a => [(k, a)]
  | (k', b) :: t, k, a => if k' = k then (k, a) :: t else (k', b) :: insertA t k a

/-- Remove a binding from an association list; embeds Go `delete(m, k)`. -/
def eraseA {α : Type} : List (String × α) → String → List (String × α)
  | [], _ => []
  | (k', a) :: t, k => if k' = k then t else (k', a) :: eraseA t k

/-- Increment the counter stored for `k`; embeds Go `m[k]++` for a key
already present in the map. -/
def bumpA : List (String × Nat) → String → List (String × Nat)
  | [], _ => []
  | (k', c) :: t, k => if k' = k then (k', c + 1) :: t else (k', c) :: bumpA t k

/-! ### Characters and line parsing

The segment and WAL files are newline-separated `key,value` lines, read
back through `bufio.Scanner` with its default `ScanLines` split: each
token is the text before the next newline with one optional trailing
carriage return stripped, a trailing newline does not produce an extra
empty token, a final unterminated chunk is still returned, and a line
that does not fit in the scanner's maximum token size aborts the scan
with `ErrTooLong`.  `splitRaw` yields the raw lines, `dropCR` is the
carriage-return strip of `ScanLines`, `splitLines` the tokens the scanner
delivers, and `scanOK` whether the scan completes without `ErrTooLong`
(lengths are counted in characters, the unit this embedding uses
consistently for file offsets).  `splitFirst` embeds
`strings.SplitN(s, ",", 2)`. -/

/-- String from a character list (the `String.mk` constructor). -/
def ofData (l : List Char) : String := ⟨l⟩

/-- `bufio.MaxScanTokenSize`, the default maximum token length of a
`bufio.Scanner` (64 KiB). -/
def maxScanTokenSize : Nat := 65536

/-- Split file contents at newlines: terminators stripped, no empty final
line for a trailing newline, an unterminated final chunk kept. -/
def splitRaw : List Char → List (List Char)
  | [] => []
  | c :: t =>
    if c = '\n' then [] :: splitRaw t
    else
      match splitRaw t with
      | [] => [[c]]
      | l :: ls => (c :: l) :: ls

/-- The `dropCR` helper of `bufio.ScanLines`: drop one trailing carriage
return. -/
def dropCR (l : List Char) : List Char :=
  if l.getLast? = some '\r' then l.dropLast else l

/-- The tokens a `bufio.Scanner` with the default `ScanLines` split
delivers: each raw line with one trailing carriage return stripped. -/
def splitLines (s : List Char) : List (List Char) := (splitRaw s).map dropCR

/-- Whether the scan completes without `ErrTooLong`: every raw line fits
in the scanner's maximum token size. -/
def scanOK (s : List Char) : Bool :=
  (splitRaw s).all (fun l => decide (l.length < maxScanTokenSize))

/-- Split a line at its first comma; `none` when the line has no comma.
Embeds `strings.SplitN(s, ",", 2)`: `none` corresponds to a 1-element
result, `some (a, b)` to the 2-element result `[a, b]`. -/
def splitFirst : List Char → Option (List Char × List Char)
  | [] => none
  | c :: t =>
    if c = ',' then some ([], t)
    else
      match splitFirst t with
      | none => none
      | some (a, b) => some (c :: a, b)

/-- `strings.SplitN(s, ",", 2)` as used by the segment reader. -/
def splitN2 (s : String) : List String :=
  match splitFirst s.data with
  | none => [s]
  | some (a, b) => [ofData a, ofData b]

/-! ### UTF-8 bytes and the FNV-1a hash (`hash/fnv`) -/

/-- The UTF-8 bytes of a string, as natural numbers; embeds the `[]byte`
conversion the Bloom filter feeds to the hash. -/
def strBytes (s : String) : List Nat :=
  (s.data.map (fun c => (String.utf8EncodeChar c).map UInt8.toNat)).flatten

/-- 64-bit FNV-1a over a byte sequence, with overflow taken modulo 2^64
as in Go's `hash/fnv` `Sum64`. -/
def fnv1a64 (bs : List Nat) : Nat :=
  bs.foldl (fun h b => ((h ^^^ b) * 1099511628211) % 18446744073709551616)
    14695981039346656037

/-! ### Bloom filter (`BloomFilter` in the source) -/

/-- A Bloom filter: a bit array of `size` bits with `hashFuncs` derived
hash functions.  The bit array is embedded as its characteristic
function. -/
structure BloomFilter where
  bitArray : Nat → Bool
  size : Nat
  hashFuncs : Nat

/-- `NewBloomFilter`: 2^21 bits, 7 hash functions. -/
def newBloomFilter : BloomFilter :=
  { bitArray := fun _ => false, size := 2097152, hashFuncs := 7 }

/-- `BloomFilter.hash`: 64-bit FNV-1a of `key || seed_byte`, reduced
modulo the bit-array size. -/
def bfHash (bf : BloomFilter) (key : String) (seed : Nat) : Nat :=
  fnv1a64 (strBytes key ++ [seed % 256]) % bf.size

/-- `BloomFilter.Add`: set the `hashFuncs` bits derived from `key`. -/
def bfAdd (bf : BloomFilter) (key : String) : BloomFilter :=
  { bf with
    bitArray := fun i =>
      if ((List.range bf.hashFuncs).map (bfHash bf key)).contains i then true
      else bf.bitArray i }

/-- `BloomFilter.MightContain`: true iff all derived bits are set. -/
def bfMightContain (bf : BloomFilter) (key : String) : Bool :=
  (List.range bf.hashFuncs).all (fun i => bf.bitArray (bfHash bf key i))

/-- Add a list of keys in order. -/
def bfAddAll (bf : BloomFilter) (keys : List String) : BloomFilter :=
  keys.foldl bfAdd bf

/-! ### File system model

Paths are strings; all paths the source builds go through
`filepath.Join(dir, name)` with a slash-free `name`, embedded by
`pathJoin`.  `osCreate` (Go `os.Create`) truncates an existing file or
creates a new one, and fails exactly when the parent directory does not
exist.  `clock` supplies the `time.Now().UnixNano()` values used in file
names, strictly increasing per call. -/

structure FS where
  dirs : List String
  files : List (String × String)
  clock : Nat

/-- The data directory exists and is empty; no `wal.log` yet. -/
def initFS (d : String) : FS := { dirs := [d], files := [], clock := 0 }

/-- `filepath.Join(dir, name)` for a slash-free `name`. -/
def pathJoin (d n : String) : String := d ++ "/" ++ n

/-- Parent directory of a path: everything before the last slash. -/
def parentDir (p : String) : String :=
  ofData (((p.data.reverse).dropWhile (fun c => c ≠ '/')).tail.reverse)

/-- Go `os.Open` + `io.ReadAll`: the contents of a file, if present. -/
def osRead (fs : FS) (p : String) : Option String := lookupA fs.files p

/-- Go `os.Create` followed by writing `content`: truncate-or-create;
fails when the parent directory is missing. -/
def osCreate (fs : FS) (p content : String) : Option FS :=
  if lookupA fs.files p ≠ none then
    some { fs with files := insertA fs.files p content }
  else if parentDir p ∈ fs.dirs then
    some { fs with files := insertA fs.files p content }
  else none

/-- Go `os.OpenFile(p, O_APPEND|O_CREATE|O_WRONLY)` + `WriteString`. -/
def osAppend (fs : FS) (p content : String) : Option FS :=
  match lookupA fs.files p with
  | some old => some { fs with files := insertA fs.files p (old ++ content) }
  | none => osCreate fs p content

/-- Go `os.Remove`: fails when the file is absent. -/
def osRemove (fs : FS) (p : String) : Option FS :=
  match lookupA fs.files p with
  | some _ => some { fs with files := eraseA fs.files p }
  | none => none

/-- One `time.Now().UnixNano()` call: the current tick, clock advanced. -/
def fsTick (fs : FS) : Nat × FS := (fs.clock, { fs with clock := fs.clock + 1 })

/-! ### Write-ahead log (`WAL` in the source) -/

structure WAL where
  filePath : String

/-- `NewWAL`: the log lives at `<dataDir>/wal.log`. -/
def newWAL (dataDir : String) : WAL := { filePath := pathJoin dataDir "wal.log" }

/-- `WAL.Log`: append one `key,value\n` line, creating the file if absent. -/
def walLog (w : WAL) (fs : FS) (key value : String) : Except String FS :=
  match osAppend fs w.filePath (key ++ "," ++ value ++ "\n") with
  | some fs2 => Except.ok fs2
  | none => Except.error ("failed to open WAL file: " ++ w.filePath)

/-- `WAL.Recover`: read the whole file line by line (one trailing
carriage return stripped per line), split each line on the first comma,
accumulate a map in which later lines shadow earlier ones; an absent file
yields the empty map; a line beyond the scanner's token limit makes
`scanner.Err()` non-nil, and the map built so far is discarded for the
error. -/
def walRecover (w : WAL) (fs : FS) : Except String (List (String × String)) :=
  match osRead fs w.filePath with
  | none => Except.ok []
  | some content =>
    if scanOK content.data then
      Except.ok ((splitLines content.data).foldl
        (fun acc line =>
          match splitFirst line with
          | some (k, v) => insertA acc (ofData k) (ofData v)
          | none => acc) [])
    else Except.error "failed to read WAL: bufio.Scanner: token too long"

/-- `WAL.Clear`: truncate to zero length; a no-op when the file is absent. -/
def walClear (w : WAL) (fs : FS) : Except String FS :=
  match osRead fs w.filePath with
  | none => Except.ok fs
  | some _ => Except.ok { fs with files := insertA fs.files w.filePath "" }

/-! ### Segment (`SSTable` in the source) -/

structure SSTable where
  filePath : String
  bloomFilter : BloomFilter
  index : List (String × Nat)

/-- The entry-writing loop of `NewSSTable`: fold the buffer entries into
(file contents, Bloom filter, offset index), tracking the cumulative
offset exactly as the source tracks `offset += len(entry)`. -/
def sstBuild : List (String × String) → Nat → BloomFilter → List (String × Nat) →
    String → String × BloomFilter × List (String × Nat)
  | [], _, bf, idx, content => (content, bf, idx)
  | (k, v) :: t, off, bf, idx, content =>
    let entry := k ++ "," ++ v ++ "\n"
    sstBuild t (off + entry.length) (bfAdd bf k) (insertA idx k off) (content ++ entry)

/-- `NewSSTable`: create `<dataDir>/sstable_<unix-nanos>.dat`, write each
buffer entry as `key,value\n`, recording its starting offset in the index
and adding its key to the filter. -/
def newSSTable (dataDir : String) (memTable : List (String × String)) (fs : FS) :
    Except String (SSTable × FS) :=
  let tick := fsTick fs
  let filePath := pathJoin dataDir ("sstable_" ++ toString tick.1 ++ ".dat")
  let built := sstBuild memTable 0 newBloomFilter [] ""
  match osCreate tick.2 filePath built.1 with
  | some fs2 =>
    Except.ok ({ filePath := filePath, bloomFilter := built.2.1, index := built.2.2 }, fs2)
  | none => Except.error ("failed to create SSTable file: " ++ filePath)

/-- `SSTable.Get`: filter check, then index lookup, then one `Scan` at
the recorded offset — the first raw line, with one trailing carriage
return stripped; `Scan` yields no token (and the error, if any, is
ignored) when no data remains or the line exceeds the scanner's token
limit.  The value is returned only when the line splits in two at a comma
and the stored key equals the requested key.  The empty string is
returned both for "not found" and for a tombstone. -/
def sstGet (s : SSTable) (fs : FS) (key : String) : Except String String :=
  if bfMightContain s.bloomFilter key then
    match lookupA s.index key with
    | none => Except.ok ""
    | some off =>
      match osRead fs s.filePath with
      | none => Except.error ("failed to open SSTable file: " ++ s.filePath)
      | some content =>
        let rest := content.data.drop off
        let raw := rest.takeWhile (fun c => c ≠ '\n')
        if rest = [] ∨ maxScanTokenSize ≤ raw.length then Except.ok ""
        else
          match splitN2 (ofData (dropCR raw)) with
          | [k', v] => if k' = key then Except.ok v else Except.ok ""
          | _ => Except.ok ""
  else Except.ok ""

/-- `SSTable.List`: scan the whole file (one trailing carriage return
stripped per line); keep lines that split in two at a comma and whose
value is non-empty (tombstones and malformed lines are dropped); a line
beyond the scanner's token limit makes `scanner.Err()` non-nil, and the
map built so far is discarded for the error. -/
def sstList (s : SSTable) (fs : FS) : Except String (List (String × String)) :=
  match osRead fs s.filePath with
  | none => Except.error ("failed to open SSTable file: " ++ s.filePath)
  | some content =>
    if scanOK content.data then
      Except.ok ((splitLines content.data).foldl
        (fun acc line =>
          match splitFirst line with
          | some (k, v) =>
            if ofData v = "" then acc else insertA acc (ofData k) (ofData v)
          | none => acc) [])
    else Except.error "failed to read SSTable: bufio.Scanner: token too long"

/-! ### Recency cache (`Cache` in the source)

The source keeps two maps keyed alike: `entries` (value + timestamp) and
`accessCount`.  `time.Now()` is recorded in the entry but never consulted
by the eviction policy; the embedding stores `0` for it. -/

structure CacheEntry where
  value : String
  timestamp : Nat
deriving DecidableEq

structure Cache where
  entries : List (String × CacheEntry)
  accessCount : List (String × Nat)
  maxSize : Nat
deriving DecidableEq

def newCache (maxSize : Nat) : Cache :=
  { entries := [], accessCount := [], maxSize := maxSize }

/-- The scan in `Cache.evict`: the first key whose count is strictly
smaller than every earlier minimum, i.e. a key of minimal access count
(`none` on an empty map, in which case the Go code deletes the absent
key `""`, a no-op). -/
def minKeyA (l : List (String × Nat)) : Option (String × Nat) :=
  l.foldl
    (fun best p =>
      match best with
      | none => some p
      | some q => if p.2 < q.2 then some p else best) none

/-- `Cache.evict`: remove a least-accessed key from both maps. -/
def cacheEvict (c : Cache) : Cache :=
  match minKeyA c.accessCount with
  | none => c
  | some (k, _) =>
    { c with entries := eraseA c.entries k, accessCount := eraseA c.accessCount k }

/-- `Cache.Set`: evict first when at capacity, then insert the entry with
access count 1. -/
def cacheSet (c : Cache) (k v : String) : Cache :=
  let c1 := if c.maxSize ≤ c.entries.length then cacheEvict c else c
  { c1 with
    entries := insertA c1.entries k { value := v, timestamp := 0 },
    accessCount := insertA c1.accessCount k 1 }

/-- `Cache.Get`: on a hit, bump the access count and return the value. -/
def cacheGet (c : Cache) (k : String) : Option String × Cache :=
  match lookupA c.entries k with
  | some e => (some e.value, { c with accessCount := bumpA c.accessCount k })
  | none => (none, c)

/-! ### Engine (`LSMTree` in the source)

The MemTable (`map[string]string` behind `Set/Get/Size/Entries`) is the
`memTable` association list itself; `MemTable.Set` is `insertA`,
`MemTable.Get` is `lookupA`, `MemTable.Size` is `List.length`, and
`MemTable.Entries` returns the map.  The engine-wide `sync.RWMutex` is
erased (sequential semantics); each operation returns its result together
with the mutated engine and file system, because the Go methods mutate
the receiver before returning an error. -/

/-- `memTableSizeThreshold`: `1024 * 1024`, compared against the entry
count returned by `MemTable.Size`. -/
def memTableSizeThreshold : Nat := 1048576

structure LSMTree where
  dataDir : String
  memTable : List (String × String)
  ssTables : List SSTable
  wal : WAL
  cache : Cache

/-- `NewLSMTree`: empty buffer, no segments, a WAL under `dataDir`, and a
cache with 1000 entries. -/
def newLSMTree (dataDir : String) : LSMTree :=
  { dataDir := dataDir, memTable := [], ssTables := [], wal := newWAL dataDir,
    cache := newCache 1000 }

/-- `flushMemTable`: materialize the buffer as a new segment appended to
the registry and reset the buffer.  The `go l.triggerCompaction()`
dispatch is modelled as the separate `compact` step. -/
def flushMemTable (l : LSMTree) (fs : FS) : Except String (LSMTree × FS) :=
  match newSSTable l.dataDir l.memTable fs with
  | Except.error e => Except.error ("failed to create SSTable: " ++ e)
  | Except.ok (sst, fs2) =>
    Except.ok ({ l with ssTables := l.ssTables ++ [sst], memTable := [] }, fs2)

/-- `LSMTree.Set`: append to the WAL, insert into the buffer, update the
cache; flush when the buffer size reaches the threshold. -/
def lsmSet (l : LSMTree) (fs : FS) (key value : String) :
    Except String Unit × LSMTree × FS :=
  match walLog l.wal fs key value with
  | Except.error e => (Except.error ("failed to log to WAL: " ++ e), l, fs)
  | Except.ok fs1 =>
    let l1 := { l with memTable := insertA l.memTable key value,
                       cache := cacheSet l.cache key value }
    if memTableSizeThreshold ≤ l1.memTable.length then
      match flushMemTable l1 fs1 with
      | Except.error e => (Except.error ("failed to flush memtable: " ++ e), l1, fs1)
      | Except.ok (l2, fs2) => (Except.ok (), l2, fs2)
    else (Except.ok (), l1, fs1)

/-- The segment loop of `LSMTree.Get`, over the registry newest first:
return the first non-empty value; an empty read falls through to the next
older segment. -/
def sstCascade (fs : FS) (key : String) : List SSTable → Except String String
  | [] => Except.ok ""
  | s :: rest =>
    match sstGet s fs key with
    | Except.error e => Except.error ("failed to get value from SSTable: " ++ e)
    | Except.ok v => if v = "" then sstCascade fs key rest else Except.ok v

/-- `LSMTree.Get`: cache, then buffer, then segments newest to oldest; a
buffer hit or a non-empty segment hit populates the cache. -/
def lsmGet (l : LSMTree) (fs : FS) (key : String) :
    Except String String × LSMTree × FS :=
  match cacheGet l.cache key with
  | (some v, c1) => (Except.ok v, { l with cache := c1 }, fs)
  | (none, _) =>
    match lookupA l.memTable key with
    | some v => (Except.ok v, { l with cache := cacheSet l.cache key v }, fs)
    | none =>
      match sstCascade fs key l.ssTables.reverse with
      | Except.error e => (Except.error e, l, fs)
      | Except.ok v =>
        if v = "" then (Except.ok "", l, fs)
        else (Except.ok v, { l with cache := cacheSet l.cache key v }, fs)

/-- `LSMTree.Delete`: `Get`; fail with `key not found` when the result is
empty; otherwise write a tombstone via `Set(key, "")`. -/
def lsmDelete (l : LSMTree) (fs : FS) (key : String) :
    Except String Unit × LSMTree × FS :=
  match lsmGet l fs key with
  | (Except.error e, l1, fs1) =>
    (Except.error ("failed to check key existence: " ++ e), l1, fs1)
  | (Except.ok v, l1, fs1) =>
    if v = "" then (Except.error "key not found", l1, fs1)
    else
      match lsmSet l1 fs1 key "" with
      | (Except.error e, l2, fs2) =>
        (Except.error ("failed to mark key as deleted: " ++ e), l2, fs2)
      | (Except.ok _, l2, fs2) => (Except.ok (), l2, fs2)

/-- `LSMTree.Recover`: replay all WAL entries into the buffer; clear the
WAL when at least one entry was replayed. -/
def lsmRecover (l : LSMTree) (fs : FS) : Except String Unit × LSMTree × FS :=
  match walRecover l.wal fs with
  | Except.error e => (Except.error ("failed to recover from WAL: " ++ e), l, fs)
  | Except.ok entries =>
    let l1 := { l with memTable := entries.foldl (fun m kv => insertA m kv.1 kv.2) l.memTable }
    if entries = [] then (Except.ok (), l1, fs)
    else
      match walClear l.wal fs with
      | Except.error e => (Except.error ("failed to clear WAL: " ++ e), l1, fs)
      | Except.ok fs2 => (Except.ok (), l1, fs2)

/-- The segment loop of `LSMTree.List`: add entries of each segment,
newest first, skipping keys already present and empty values. -/
def listCascade (fs : FS) : List SSTable → List (String × String) →
    Except String (List (String × String))
  | [], acc => Except.ok acc
  | s :: rest, acc =>
    match sstList s fs with
    | Except.error e => Except.error ("failed to list entries from SSTable: " ++ e)
    | Except.ok entries =>
      listCascade fs rest (entries.foldl
        (fun acc2 kv =>
          match lookupA acc2 kv.1 with
          | some _ => acc2
          | none => if kv.2 = "" then acc2 else insertA acc2 kv.1 kv.2) acc)

/-- `LSMTree.List`: live buffer entries first, then each segment newest to
oldest, hiding keys already seen and empty values. -/
def lsmList (l : LSMTree) (fs : FS) :
    Except String (List (String × String)) × LSMTree × FS :=
  let base := l.memTable.foldl
    (fun acc kv => if kv.2 = "" then acc else insertA acc kv.1 kv.2) []
  match listCascade fs l.ssTables.reverse base with
  | Except.error e => (Except.error e, l, fs)
  | Except.ok m => (Except.ok m, l, fs)

/-- `compactSSTables`: merge the live entries of two segments (the second,
newer segment winning on collision) into a fresh MemTable and create a
new segment from it.  The source passes the would-be output *file path*
`<dataDir>/sstable_compacted_<nanos>.dat` to `NewSSTable` where a
directory is expected. -/
def compactSSTables (l : LSMTree) (fs : FS) (s1 s2 : SSTable) :
    Except String (SSTable × FS) :=
  match sstList s1 fs with
  | Except.error e => Except.error ("failed to list entries from SSTable: " ++ e)
  | Except.ok e1 =>
    match sstList s2 fs with
    | Except.error e => Except.error ("failed to list entries from SSTable: " ++ e)
    | Except.ok e2 =>
      let merged := (e1 ++ e2).foldl (fun m kv => insertA m kv.1 kv.2) []
      let tick := fsTick fs
      let compactedPath :=
        pathJoin l.dataDir ("sstable_compacted_" ++ toString tick.1 ++ ".dat")
      match newSSTable compactedPath merged tick.2 with
      | Except.error e => Except.error ("failed to create compacted SSTable: " ++ e)
      | Except.ok r => Except.ok r

/-- `triggerCompaction`: with fewer than two segments do nothing.
Otherwise merge the two oldest segments, replace them by the merged one,
and delete their files; any error is logged and swallowed, leaving the
engine and file system as they were. -/
def triggerCompaction (l : LSMTree) (fs : FS) : LSMTree × FS :=
  match l.ssTables with
  | s0 :: s1 :: rest =>
    (match compactSSTables l fs s0 s1 with
     | Except.error _ => (l, fs)
     | Except.ok (c, fs1) =>
       let l1 := { l with ssTables := c :: rest }
       let fs2 := match osRemove fs1 s0.filePath with
         | some f => f
         | none => fs1
       let fs3 := match osRemove fs2 s1.filePath with
         | some f => f
         | none => fs2
       (l1, fs3))
  | _ => (l, fs)

/-! ### Operation sequences

`LsmOp` closes the public engine operations under sequencing; `flush` is
the automatic flush step (the body of `flushMemTable`, which the engine
runs when the buffer reaches the threshold) and `compact` is the
asynchronously dispatched compaction goroutine actually running. -/

inductive LsmOp where
  | set (key value : String)
  | get (key : String)
  | del (key : String)
  | list
  | recover
  | flush
  | compact
deriving DecidableEq

def applyOp (s : LSMTree × FS) : LsmOp → LSMTree × FS
  | LsmOp.set k v => (lsmSet s.1 s.2 k v).2
  | LsmOp.get k => (lsmGet s.1 s.2 k).2
  | LsmOp.del k => (lsmDelete s.1 s.2 k).2
  | LsmOp.list => (lsmList s.1 s.2).2
  | LsmOp.recover => (lsmRecover s.1 s.2).2
  | LsmOp.flush =>
    match flushMemTable s.1 s.2 with
    | Except.ok r => r
    | Except.error _ => s
  | LsmOp.compact => triggerCompaction s.1 s.2

def applyOps (ops : List LsmOp) (s : LSMTree × FS) : LSMTree × FS :=
  ops.foldl applyOp s

/-- A fresh engine over a fresh data directory. -/
def initState (d : String) : LSMTree × FS := (newLSMTree d, initFS d)

/-! ### Association-list lemmas -/

theorem lookupA_insertA_self {α : Type} (l : List (String × α)) (k : String) (a : α) :
    lookupA (insertA l k a) k = some a := by
  induction l with
  | nil => simp [insertA, lookupA]
  | cons p t ih =>
    by_cases h : p.1 = k
    · simp [insertA, h, lookupA]
    · simp [insertA, h, lookupA, ih]

theorem lookupA_insertA_ne {α : Type} (l : List (String × α)) (k k' : String) (a : α)
    (h : k' ≠ k) : lookupA (insertA l k a) k' = lookupA l k' := by
  have hk : ¬ k = k' := fun hh => h hh.symm
  induction l with
  | nil => simp [insertA, lookupA, hk]
  | cons p t ih =>
    by_cases hp : p.1 = k
    · subst hp
      simp [insertA, lookupA, hk]
    · simp [insertA, hp, lookupA, ih]

theorem insertA_eq_append {α : Type} (l : List (String × α)) (k : String) (a : α)
    (h : lookupA l k = none) : insertA l k a = l ++ [(k, a)] := by
  induction l with
  | nil => simp [insertA]
  | cons p t ih =>
    by_cases hp : p.1 = k
    · simp [lookupA, hp] at h
    · simp only [lookupA, if_neg hp] at h
      simp [insertA, hp, ih h]

theorem length_insertA_le {α : Type} (l : List (String × α)) (k : String) (a : α) :
    (insertA l k a).length ≤ l.length + 1 := by
  induction l with
  | nil => simp [insertA]
  | cons p t ih =>
    by_cases hp : p.1 = k
    · simp [insertA, hp]
    · simp only [insertA, if_neg hp, List.length_cons]
      omega

theorem lookupA_none_iff {α : Type} (l : List (String × α)) (k : String) :
    lookupA l k = none ↔ k ∉ l.map Prod.fst := by
  induction l with
  | nil => simp [lookupA]
  | cons p t ih =>
    by_cases hp : p.1 = k
    · subst hp
      simp [lookupA]
    · have hkp : ¬ k = p.1 := fun hh => hp hh.symm
      simp [lookupA, hp, ih, hkp]

theorem map_fst_insertA {α : Type} (l : List (String × α)) (k : String) (a : α) :
    (insertA l k a).map Prod.fst =
      if k ∈ l.map Prod.fst then l.map Prod.fst else l.map Prod.fst ++ [k] := by
  induction l with
  | nil => simp [insertA]
  | cons p t ih =>
    by_cases hp : p.1 = k
    · subst hp
      simp [insertA]
    · have hkp : ¬ k = p.1 := fun hh => hp hh.symm
      simp only [insertA, if_neg hp, List.map_cons, List.mem_cons, hkp, false_or, ih]
      by_cases ht : k ∈ t.map Prod.fst <;> simp [ht]

theorem map_fst_eraseA {α : Type} (l : List (String × α)) (k : String) :
    (eraseA l k).map Prod.fst = (l.map Prod.fst).erase k := by
  induction l with
  | nil => simp [eraseA]
  | cons p t ih =>
    by_cases hp : p.1 = k
    · subst hp
      simp [eraseA, List.erase_cons_head]
    · have hbeq : (p.1 == k) = false := by simp [hp]
      simp only [eraseA, if_neg hp, List.map_cons, List.erase_cons, hbeq]
      simp [ih]

theorem map_fst_bumpA (l : List (String × Nat)) (k : String) :
    (bumpA l k).map Prod.fst = l.map Prod.fst := by
  induction l with
  | nil => simp [bumpA]
  | cons p t ih =>
    by_cases hp : p.1 = k
    · simp [bumpA, hp]
    · simp [bumpA, hp, ih]

theorem lookupA_eraseA {α : Type} (l : List (String × α)) (k k' : String)
    (hnd : (l.map Prod.fst).Nodup) :
    lookupA (eraseA l k) k' = if k' = k then none else lookupA l k' := by
  induction l with
  | nil => simp [eraseA, lookupA]
  | cons p t ih =>
    simp only [List.map_cons, List.nodup_cons] at hnd
    by_cases hp : p.1 = k
    · subst hp
      by_cases hk : k' = p.1
      · subst hk
        simp only [eraseA, if_pos rfl, if_pos rfl]
        rw [← lookupA_none_iff] at hnd
        exact hnd.1
      · have hpk : ¬ p.1 = k' := fun hh => hk hh.symm
        simp [eraseA, lookupA, hpk, hk]
    · by_cases hpk : p.1 = k'
      · subst hpk
        have hk : ¬ p.1 = k := hp
        simp [eraseA, hp, lookupA, hk]
      · simp [eraseA, hp, lookupA, hpk, ih hnd.2]

theorem nodup_keys_insertA {α : Type} (l : List (String × α)) (k : String) (a : α)
    (h : (l.map Prod.fst).Nodup) : ((insertA l k a).map Prod.fst).Nodup := by
  rw [map_fst_insertA]
  by_cases hm : k ∈ l.map Prod.fst
  · simpa [hm]
  · simp only [hm, if_false]
    simpa [List.nodup_append] using And.intro h hm

theorem foldl_insertA_acc (l : List (String × String)) :
    ∀ acc : List (String × String),
      (acc.map Prod.fst ++ l.map Prod.fst).Nodup →
      l.foldl (fun m kv => insertA m kv.1 kv.2) acc = acc ++ l := by
  induction l with
  | nil => intro acc _; simp
  | cons p t ih =>
    intro acc hacc
    have hp : lookupA acc p.1 = none := by
      rw [lookupA_none_iff]
      intro hmem
      exact (List.disjoint_of_nodup_append hacc) hmem (by simp)
    have hstep : insertA acc p.1 p.2 = acc ++ [p] := by
      rw [insertA_eq_append _ _ _ hp]
    have hrest : ((acc ++ [p]).map Prod.fst ++ t.map Prod.fst).Nodup := by
      simp only [List.map_append, List.map_cons, List.map_nil, List.append_assoc,
        List.singleton_append]
      simpa using hacc
    calc (p :: t).foldl (fun m kv => insertA m kv.1 kv.2) acc
        = t.foldl (fun m kv => insertA m kv.1 kv.2) (acc ++ [p]) := by
          simp [List.foldl_cons, hstep]
      _ = (acc ++ [p]) ++ t := ih (acc ++ [p]) hrest
      _ = acc ++ p :: t := by simp

theorem foldl_insertA_self (l : List (String × String))
    (h : (l.map Prod.fst).Nodup) :
    l.foldl (fun m kv => insertA m kv.1 kv.2) [] = l := by
  simpa using foldl_insertA_acc l [] (by simpa using h)

theorem nodup_keys_foldl_insertA {α : Type} (l : List (String × α)) :
    ((l.foldl (fun m kv => insertA m kv.1 kv.2) []).map Prod.fst).Nodup := by
  have hgen : ∀ acc : List (String × α), (acc.map Prod.fst).Nodup →
      ((l.foldl (fun m kv => insertA m kv.1 kv.2) acc).map Prod.fst).Nodup := by
    induction l with
    | nil => intro acc hacc; simpa using hacc
    | cons p t ih => intro acc hacc; exact ih _ (nodup_keys_insertA _ _ _ hacc)
  exact hgen [] (by simp)

/-! ### Bloom filter lemmas -/

theorem bfAdd_size (bf : BloomFilter) (k : String) : (bfAdd bf k).size = bf.size := rfl

theorem bfAdd_hashFuncs (bf : BloomFilter) (k : String) :
    (bfAdd bf k).hashFuncs = bf.hashFuncs := rfl

theorem bfHash_bfAdd (bf : BloomFilter) (k k' : String) (s : Nat) :
    bfHash (bfAdd bf k') k s = bfHash bf k s := rfl

theorem bfAdd_bitArray_mono (bf : BloomFilter) (k' : String) (i : Nat)
    (h : bf.bitArray i = true) : (bfAdd bf k').bitArray i = true := by
  simp only [bfAdd]
  by_cases hc : ((List.range bf.hashFuncs).map (bfHash bf k')).contains i <;> simp [hc, h]

theorem bfAdd_bitArray_self (bf : BloomFilter) (k : String) (s : Nat)
    (hs : s < bf.hashFuncs) : (bfAdd bf k).bitArray (bfHash bf k s) = true := by
  simp only [bfAdd]
  have : ((List.range bf.hashFuncs).map (bfHash bf k)).contains (bfHash bf k s) = true :=
    List.elem_eq_true_of_mem
      (List.mem_map_of_mem (bfHash bf k) (List.mem_range.mpr hs))
  simp only [this, if_true]

theorem bfMightContain_bfAdd_self (bf : BloomFilter) (k : String) :
    bfMightContain (bfAdd bf k) k = true := by
  simp only [bfMightContain, List.all_eq_true]
  intro s hs
  rw [bfAdd_hashFuncs] at hs
  exact bfAdd_bitArray_self bf k s (List.mem_range.mp hs)

theorem bfMightContain_bfAdd_mono (bf : BloomFilter) (k k' : String)
    (h : bfMightContain bf k = true) : bfMightContain (bfAdd bf k') k = true := by
  simp only [bfMightContain, List.all_eq_true] at h ⊢
  intro s hs
  rw [bfAdd_hashFuncs] at hs
  rw [bfHash_bfAdd]
  exact bfAdd_bitArray_mono bf k' _ (h s hs)

theorem bfMightContain_bfAddAll_mono (keys : List String) (bf : BloomFilter) (k : String)
    (h : bfMightContain bf k = true) : bfMightContain (bfAddAll bf keys) k = true := by
  induction keys generalizing bf with
  | nil => simpa [bfAddAll] using h
  | cons a t ih =>
    simp only [bfAddAll, List.foldl_cons]
    exact ih (bfAdd bf a) (bfMightContain_bfAdd_mono bf k a h)

/-- Claim C7 (confirmed).  Filter soundness: for every key `k` added to a
segment's Bloom filter (fixed size 2^21 bits, 7 hash functions derived
from 64-bit FNV-1a of `key || seed_byte`), `MightContain k` returns true
afterwards, regardless of which other keys have been added before or
after — no false negatives. -/
theorem bloom_filter_no_false_negatives (before after : List String) (k : String) :
    bfMightContain (bfAddAll (bfAdd (bfAddAll newBloomFilter before) k) after) k = true :=
  bfMightContain_bfAddAll_mono after _ k
    (bfMightContain_bfAdd_self (bfAddAll newBloomFilter before) k)

/-! ### Cache lemmas -/

/-- Sequences of cache operations, as exercised by claim C9. -/
inductive CacheOp where
  | set (key value : String)
  | get (key : String)
deriving DecidableEq

def applyCacheOp (c : Cache) : CacheOp → Cache
  | CacheOp.set k v => cacheSet c k v
  | CacheOp.get k => (cacheGet c k).2

def runCache (ops : List CacheOp) (c : Cache) : Cache :=
  ops.foldl applyCacheOp c

/-- Cache well-formedness: both maps have the same keys, without
duplicates (true of the Go maps by construction). -/
def cacheWF (c : Cache) : Prop :=
  c.entries.map Prod.fst = c.accessCount.map Prod.fst ∧
  (c.entries.map Prod.fst).Nodup

theorem minKeyA_foldl_some (l : List (String × Nat)) :
    ∀ q : String × Nat, ∃ r, (l.foldl
      (fun best p =>
        match best with
        | none => some p
        | some q' => if p.2 < q'.2 then some p else best) (some q)) = some r ∧
      (r = q ∨ r ∈ l) ∧ r.2 ≤ q.2 ∧ ∀ x ∈ l, r.2 ≤ x.2 := by
  induction l with
  | nil => intro q; exact ⟨q, rfl, Or.inl rfl, le_refl _, by simp⟩
  | cons p t ih =>
    intro q
    by_cases h : p.2 < q.2
    · obtain ⟨r, hr, hmem, hle, hall⟩ := ih p
      refine ⟨r, ?_, ?_, ?_, ?_⟩
      · simpa [h] using hr
      · rcases hmem with hm | hm
        · exact Or.inr (by simp [hm])
        · exact Or.inr (by simp [hm])
      · exact le_trans hle (le_of_lt h)
      · intro x hx
        rcases List.mem_cons.mp hx with hx | hx
        · exact hx ▸ hle
        · exact hall x hx
    · obtain ⟨r, hr, hmem, hle, hall⟩ := ih q
      refine ⟨r, ?_, ?_, ?_, ?_⟩
      · simpa [h] using hr
      · rcases hmem with hm | hm
        · exact Or.inl hm
        · exact Or.inr (by simp [hm])
      · exact hle
      · intro x hx
        rcases List.mem_cons.mp hx with hx | hx
        · exact hx ▸ (le_trans hle (le_of_not_lt h))
        · exact hall x hx

theorem minKeyA_spec (l : List (String × Nat)) (h : l ≠ []) :
    ∃ r, minKeyA l = some r ∧ r ∈ l ∧ ∀ x ∈ l, r.2 ≤ x.2 := by
  match l, h with
  | p :: t, _ =>
    obtain ⟨r, hr, hmem, hle, hall⟩ := minKeyA_foldl_some t p
    refine ⟨r, ?_, ?_, ?_⟩
    · simpa [minKeyA] using hr
    · rcases hmem with hm | hm
      · simp [hm]
      · simp [hm]
    · intro x hx
      rcases List.mem_cons.mp hx with hx | hx
      · exact hx ▸ hle
      · exact hall x hx

theorem cacheEvict_maxSize (c : Cache) : (cacheEvict c).maxSize = c.maxSize := by
  unfold cacheEvict
  cases minKeyA c.accessCount with
  | none => rfl
  | some p => rfl

theorem cacheSet_maxSize (c : Cache) (k v : String) :
    (cacheSet c k v).maxSize = c.maxSize := by
  unfold cacheSet
  by_cases h : c.maxSize ≤ c.entries.length <;> simp [h, cacheEvict_maxSize]

theorem cacheWF_newCache (n : Nat) : cacheWF (newCache n) := by
  constructor <;> simp [newCache]

theorem cacheWF_evict (c : Cache) (h : cacheWF c) : cacheWF (cacheEvict c) := by
  unfold cacheEvict
  cases hm : minKeyA c.accessCount with
  | none => exact h
  | some p =>
    obtain ⟨hkeys, hnd⟩ := h
    constructor
    · simp only [map_fst_eraseA, hkeys]
    · simpa [map_fst_eraseA] using hnd.erase p.1

theorem cacheWF_set (c : Cache) (k v : String) (h : cacheWF c) :
    cacheWF (cacheSet c k v) := by
  have h1 : cacheWF (if c.maxSize ≤ c.entries.length then cacheEvict c else c) := by
    split
    · exact cacheWF_evict c h
    · exact h
  obtain ⟨hkeys, hnd⟩ := h1
  refine ⟨?_, ?_⟩
  · show ((cacheSet c k v).entries).map Prod.fst = ((cacheSet c k v).accessCount).map Prod.fst
    simp only [cacheSet]
    rw [map_fst_insertA, map_fst_insertA, hkeys]
  · show ((cacheSet c k v).entries.map Prod.fst).Nodup
    simp only [cacheSet]
    exact nodup_keys_insertA _ _ _ hnd

theorem cacheWF_get (c : Cache) (k : String) (h : cacheWF c) :
    cacheWF (cacheGet c k).2 := by
  unfold cacheGet
  cases lookupA c.entries k with
  | none => exact h
  | some e =>
    obtain ⟨hkeys, hnd⟩ := h
    exact ⟨by simp [map_fst_bumpA, hkeys], hnd⟩

theorem cacheGet_entries (c : Cache) (k : String) :
    (cacheGet c k).2.entries = c.entries ∧ (cacheGet c k).2.maxSize = c.maxSize := by
  unfold cacheGet
  cases lookupA c.entries k <;> exact ⟨rfl, rfl⟩

theorem cacheSet_length_le (c : Cache) (k v : String) (hwf : cacheWF c)
    (hN : 1 ≤ c.maxSize) (hlen : c.entries.length ≤ c.maxSize) :
    (cacheSet c k v).entries.length ≤ c.maxSize := by
  by_cases hcap : c.maxSize ≤ c.entries.length
  · have hlen_eq : c.entries.length = c.maxSize := le_antisymm hlen hcap
    have hACkeys : c.entries.map Prod.fst = c.accessCount.map Prod.fst := hwf.1
    have hAClen : c.accessCount.length = c.entries.length := by
      have := congrArg List.length hACkeys
      simpa using this.symm
    have hACne : c.accessCount ≠ [] := by
      intro he
      rw [he] at hAClen
      simp at hAClen
      omega
    obtain ⟨r, hr, hrmem, _⟩ := minKeyA_spec _ hACne
    obtain ⟨ek, c0⟩ := r
    have hkey : ek ∈ c.entries.map Prod.fst := by
      rw [hACkeys]
      exact List.mem_map_of_mem Prod.fst hrmem
    have herase : (eraseA c.entries ek).length = c.entries.length - 1 := by
      have hm := congrArg List.length (map_fst_eraseA c.entries ek)
      rw [List.length_erase_of_mem hkey] at hm
      simpa using hm
    have hev : (cacheEvict c).entries = eraseA c.entries ek := by
      unfold cacheEvict
      rw [hr]
    have : (cacheSet c k v).entries = insertA (cacheEvict c).entries k
        { value := v, timestamp := 0 } := by
      simp only [cacheSet, hcap, if_true]
    rw [this, hev]
    calc (insertA (eraseA c.entries ek) k { value := v, timestamp := 0 }).length
        ≤ (eraseA c.entries ek).length + 1 := length_insertA_le _ _ _
      _ = c.entries.length - 1 + 1 := by rw [herase]
      _ ≤ c.maxSize := by omega
  · have : (cacheSet c k v).entries = insertA c.entries k
        { value := v, timestamp := 0 } := by
      simp only [cacheSet, hcap, if_false]
    rw [this]
    calc (insertA c.entries k { value := v, timestamp := 0 }).length
        ≤ c.entries.length + 1 := length_insertA_le _ _ _
      _ ≤ c.maxSize := by omega

theorem cacheSet_at_capacity (c : Cache) (k v : String) (hwf : cacheWF c)
    (hcap : c.maxSize ≤ c.entries.length) (hne : c.entries ≠ []) :
    ∃ ek c0,
      minKeyA c.accessCount = some (ek, c0) ∧
      (∀ q ∈ c.accessCount, c0 ≤ q.2) ∧
      cacheSet c k v =
        { entries := insertA (eraseA c.entries ek) k { value := v, timestamp := 0 },
          accessCount := insertA (eraseA c.accessCount ek) k 1,
          maxSize := c.maxSize } ∧
      lookupA (cacheSet c k v).accessCount k = some 1 := by
  have hACkeys : c.entries.map Prod.fst = c.accessCount.map Prod.fst := hwf.1
  have hACne : c.accessCount ≠ [] := by
    intro he
    apply hne
    rw [he] at hACkeys
    simpa using List.map_eq_nil_iff.mp hACkeys
  obtain ⟨r, hr, hrmem, hrmin⟩ := minKeyA_spec _ hACne
  obtain ⟨ek, c0⟩ := r
  have heq : cacheSet c k v =
      { entries := insertA (eraseA c.entries ek) k { value := v, timestamp := 0 },
        accessCount := insertA (eraseA c.accessCount ek) k 1,
        maxSize := c.maxSize } := by
    simp only [cacheSet, cacheEvict, hcap, if_true, hr]
  refine ⟨ek, c0, hr, fun q hq => hrmin q hq, heq, ?_⟩
  rw [heq]
  exact lookupA_insertA_self _ _ _

/-- The invariant carried along every sequence of cache operations. -/
def cacheInv (N : Nat) (c : Cache) : Prop :=
  cacheWF c ∧ c.maxSize = N ∧ c.entries.length ≤ N

theorem cacheInv_newCache (N : Nat) : cacheInv N (newCache N) :=
  ⟨cacheWF_newCache N, rfl, by simp [newCache]⟩

theorem cacheInv_step (N : Nat) (c : Cache) (op : CacheOp) (hN : 1 ≤ N)
    (h : cacheInv N c) : cacheInv N (applyCacheOp c op) := by
  obtain ⟨hwf, hmax, hlen⟩ := h
  cases op with
  | set k v =>
    refine ⟨cacheWF_set c k v hwf, ?_, ?_⟩
    · rw [applyCacheOp, cacheSet_maxSize, hmax]
    · rw [applyCacheOp, ← hmax]
      exact cacheSet_length_le c k v hwf (hmax ▸ hN) (hmax ▸ hlen)
  | get k =>
    refine ⟨cacheWF_get c k hwf, ?_, ?_⟩
    · rw [applyCacheOp, (cacheGet_entries c k).2, hmax]
    · rw [applyCacheOp, (cacheGet_entries c k).1]
      exact hlen

theorem cacheInv_run (N : Nat) (ops : List CacheOp) (hN : 1 ≤ N) :
    cacheInv N (runCache ops (newCache N)) := by
  have hgen : ∀ c, cacheInv N c → cacheInv N (runCache ops c) := by
    induction ops with
    | nil => intro c hc; exact hc
    | cons op t ih =>
      intro c hc
      exact ih _ (cacheInv_step N c op hN hc)
  exact hgen _ (cacheInv_newCache N)

/-- Claim C9 (confirmed).  Cache capacity is a hard ceiling: from an empty
cache of capacity `N ≥ 1`, after any sequence of `Set`/`Get` operations
the cache holds at most `N` entries; and whenever `Set` is invoked at
capacity, a key of least access count is evicted from both maps before
the new entry is inserted with access count 1. -/
theorem cache_capacity_hard_ceiling (N : Nat) (ops : List CacheOp) (k v : String)
    (hN : 1 ≤ N) :
    (runCache ops (newCache N)).entries.length ≤ N ∧
    (N ≤ (runCache ops (newCache N)).entries.length →
      ∃ ek c0,
        minKeyA (runCache ops (newCache N)).accessCount = some (ek, c0) ∧
        (∀ q ∈ (runCache ops (newCache N)).accessCount, c0 ≤ q.2) ∧
        cacheSet (runCache ops (newCache N)) k v =
          { entries := insertA (eraseA (runCache ops (newCache N)).entries ek) k
              { value := v, timestamp := 0 },
            accessCount :=
              insertA (eraseA (runCache ops (newCache N)).accessCount ek) k 1,
            maxSize := N } ∧
        lookupA (cacheSet (runCache ops (newCache N)) k v).accessCount k = some 1) := by
  obtain ⟨hwf, hmax, hlen⟩ := cacheInv_run N ops hN
  refine ⟨hlen, fun hcap => ?_⟩
  have hne : (runCache ops (newCache N)).entries ≠ [] := by
    intro he
    rw [he] at hcap
    simp at hcap
    omega
  have hcap2 : (runCache ops (newCache N)).maxSize ≤
      (runCache ops (newCache N)).entries.length := by
    rw [hmax]
    exact hcap
  have := cacheSet_at_capacity (runCache ops (newCache N)) k v hwf hcap2 hne
  rw [hmax] at this
  exact this

/-- Witness for claim C9 at capacity 1 after one `Set`. -/
theorem cache_capacity_hard_ceiling_witness :
    1 ≤ 1 ∧
    ((runCache [CacheOp.set "a" "x"] (newCache 1)).entries.length ≤ 1 ∧
     (1 ≤ (runCache [CacheOp.set "a" "x"] (newCache 1)).entries.length →
       ∃ ek c0,
         minKeyA (runCache [CacheOp.set "a" "x"] (newCache 1)).accessCount =
           some (ek, c0) ∧
         (∀ q ∈ (runCache [CacheOp.set "a" "x"] (newCache 1)).accessCount,
           c0 ≤ q.2) ∧
         cacheSet (runCache [CacheOp.set "a" "x"] (newCache 1)) "b" "y" =
           { entries :=
               insertA (eraseA (runCache [CacheOp.set "a" "x"] (newCache 1)).entries ek)
                 "b" { value := "y", timestamp := 0 },
             accessCount :=
               insertA
                 (eraseA (runCache [CacheOp.set "a" "x"] (newCache 1)).accessCount ek)
                 "b" 1,
             maxSize := 1 } ∧
         lookupA (cacheSet (runCache [CacheOp.set "a" "x"] (newCache 1)) "b" "y").accessCount
           "b" = some 1)) :=
  ⟨Nat.le_refl 1,
    cache_capacity_hard_ceiling 1 [CacheOp.set "a" "x"] "b" "y" (Nat.le_refl 1)⟩

/-! ### Claim C10: List is read-only -/

/-- Claim C10 (confirmed).  A successful `List()` leaves the entire engine
state unchanged: the engine value (recency cache, write buffer, WAL
handle, segment registry) and the file system (WAL file and segment
files) returned by `List` are the ones it was given; in particular `List`
never inserts entries into the recency cache. -/
theorem list_read_only (l : LSMTree) (fs : FS) (m : List (String × String))
    (l' : LSMTree) (fs' : FS) (h : lsmList l fs = (Except.ok m, l', fs')) :
    l' = l ∧ fs' = fs := by
  simp only [lsmList] at h
  cases hcl : listCascade fs l.ssTables.reverse
      (l.memTable.foldl
        (fun acc kv => if kv.2 = "" then acc else insertA acc kv.1 kv.2) []) with
  | error e =>
    rw [hcl] at h
    simp at h
  | ok m2 =>
    rw [hcl] at h
    have h2 := congrArg (fun p => p.2.1) h
    have h3 := congrArg (fun p => p.2.2) h
    exact ⟨h2.symm, h3.symm⟩

/-- Witness for claim C10 on a fresh engine. -/
theorem list_read_only_witness :
    lsmList (newLSMTree "d") (initFS "d") =
      (Except.ok [], newLSMTree "d", initFS "d") ∧
    (newLSMTree "d" = newLSMTree "d" ∧ initFS "d" = initFS "d") :=
  ⟨rfl, list_read_only (newLSMTree "d") (initFS "d") [] (newLSMTree "d") (initFS "d") rfl⟩

/-! ### Concrete executions used by claims C2, C4, C5, C6, C8 -/

/-- Extract the value of a succeeding `Except` computation (the default is
dead on the concrete inputs below). -/
def okOr {α : Type} (e : Except String α) (dflt : α) : α :=
  match e with
  | Except.ok a => a
  | Except.error _ => dflt

/-- The engine state after `Set("k","x")` followed by a flush. -/
def c2mid : LSMTree × FS :=
  applyOps [LsmOp.set "k" "x", LsmOp.flush] (initState "d")

/-- `c2mid` after `Delete("k")` (which succeeds) and a second flush: the
value `"x"` lives in the older segment, the tombstone in the newer one. -/
def c2state : LSMTree × FS :=
  applyOps [LsmOp.set "k" "x", LsmOp.flush, LsmOp.del "k", LsmOp.flush] (initState "d")

/-- Claim C2 (code bug).  After `Set("k","x")`, a flush, a successful
`Delete("k")` and a flush of the tombstone, `List()` still reports
`k ↦ "x"`: the tombstone line `k,` in the newer segment is skipped by
`SSTable.List` instead of masking the live entry in the older segment, so
the deleted key resurfaces. -/
theorem tombstone_not_masked_in_list :
    (lsmDelete c2mid.1 c2mid.2 "k").1 = Except.ok () ∧
    c2state = applyOps [LsmOp.del "k", LsmOp.flush] c2mid ∧
    (lsmList c2state.1 c2state.2).1 = Except.ok [("k", "x")] :=
  ⟨rfl, rfl, rfl⟩

/-- The engine state with two flushed segments (`a ↦ "1"` then `b ↦ "2"`). -/
def c4state : LSMTree × FS :=
  applyOps [LsmOp.set "a" "1", LsmOp.flush, LsmOp.set "b" "2", LsmOp.flush]
    (initState "d")

/-- Claim C4 (code bug).  With two segments present, `triggerCompaction`
changes nothing: `compactSSTables` passes the would-be output file path
`d/sstable_compacted_2.dat` to `NewSSTable` as the data directory, so the
segment file creation fails (no such directory), the error is swallowed,
and both original segments and their files survive; no merged segment is
created. -/
theorem compaction_always_fails :
    c4state.1.ssTables.length = 2 ∧
    triggerCompaction c4state.1 c4state.2 = (c4state.1, c4state.2) ∧
    osRead c4state.2 "d/sstable_0.dat" = some "a,1\n" ∧
    osRead c4state.2 "d/sstable_1.dat" = some "b,2\n" :=
  ⟨rfl, rfl, rfl, rfl⟩

/-- The engine state after `Set("k","a\nb")` and a flush. -/
def c8state : LSMTree × FS :=
  applyOps [LsmOp.set "k" "a\nb", LsmOp.flush] (initState "d")

/-- Claim C8 (confirmed).  A value containing a newline is silently
corrupted: `Set("k", "a\nb")` reports success, yet the flushed segment's
`Get("k")` returns only `"a"` (the prefix before the first newline, since
the reader stops at the line break the value introduced), and
`WAL.Recover` yields `k ↦ "a"` rather than the stored value (the `b`
after the newline parses as a comma-less line and is dropped). -/
theorem newline_value_corrupted :
    (lsmSet (newLSMTree "d") (initFS "d") "k" "a\nb").1 = Except.ok () ∧
    c8state.1.ssTables.map (fun s => sstGet s c8state.2 "k") = [Except.ok "a"] ∧
    walRecover (newWAL "d") c8state.2 = Except.ok [("k", "a")] ∧
    ("a\nb" : String) ≠ "a" ∧
    ofData ("a\nb".data.takeWhile (fun c => c ≠ '\n')) = "a" :=
  ⟨rfl, rfl, rfl, by decide, by decide⟩

/-- The engine state after writing the tombstone `Set("k","")`, a restart
(fresh engine on the same directory) and `Recover`: the tombstone is in
the write buffer, and the fresh cache is empty. -/
def c6state : LSMTree × FS :=
  (lsmRecover (newLSMTree "d") (applyOps [LsmOp.set "k" ""] (initState "d")).2).2

/-- Claim C6 counterexample.  `Delete` of the tombstoned key `k` fails
with `key not found` as claimed, but does not leave the cache unchanged:
the `Get` it performs finds the tombstone in the write buffer and inserts
`k ↦ ""` into the previously empty recency cache. -/
theorem delete_error_mutates_cache :
    c6state.1.cache.entries = [] ∧
    (lsmDelete c6state.1 c6state.2 "k").1 = Except.error "key not found" ∧
    (lsmDelete c6state.1 c6state.2 "k").2.1.cache.entries =
      [("k", { value := "", timestamp := 0 })] ∧
    (lsmDelete c6state.1 c6state.2 "k").2.1.cache ≠ c6state.1.cache :=
  ⟨rfl, rfl, rfl, by decide⟩

/-! ### Claim C5: segment precedence -/

/-- A segment holding `k ↦ "x"` (as flushed into directory `d`). -/
def c5seg0 : SSTable × FS :=
  okOr (newSSTable "d" [("k", "x")] (initFS "d"))
    ({ filePath := "", bloomFilter := newBloomFilter, index := [] }, initFS "d")

/-- A newer segment holding the tombstone entry `k ↦ ""`. -/
def c5seg1 : SSTable × FS :=
  okOr (newSSTable "d" [("k", "")] c5seg0.2)
    ({ filePath := "", bloomFilter := newBloomFilter, index := [] }, c5seg0.2)

/-- An engine whose registry holds the two segments above and whose cache
and buffer do not contain `k` (as after the cache evicted `k`). -/
def c5state : LSMTree :=
  { dataDir := "d", memTable := [], ssTables := [c5seg0.1, c5seg1.1],
    wal := newWAL "d", cache := newCache 1000 }

def c5fs : FS := c5seg1.2

/-- Claim C5 counterexample.  Both segments contain an entry for `k` (both
indexes hold it), the cache and buffer miss, yet `Get("k")` observes the
OLDER segment's value `"x"`: the newer segment's entry is the tombstone
`""`, which the cascade skips instead of observing. -/
theorem newer_segment_entry_not_observed :
    (lookupA c5seg0.1.index "k").isSome = true ∧
    (lookupA c5seg1.1.index "k").isSome = true ∧
    (cacheGet c5state.cache "k").1 = none ∧
    lookupA c5state.memTable "k" = none ∧
    sstGet c5seg1.1 c5fs "k" = Except.ok "" ∧
    (lsmGet c5state c5fs "k").1 = Except.ok "x" ∧
    (Except.ok "x" : Except String String) ≠ Except.ok "" :=
  ⟨rfl, rfl, rfl, rfl, rfl, rfl,
    fun h => absurd (Except.ok.inj h) (by decide)⟩

/-- `LSMTree.Get` under a cache miss reduces to buffer and cascade. -/
theorem lsmGet_cache_miss (l : LSMTree) (fs : FS) (key : String)
    (hc : (cacheGet l.cache key).1 = none) :
    lsmGet l fs key =
      match lookupA l.memTable key with
      | some v => (Except.ok v, { l with cache := cacheSet l.cache key v }, fs)
      | none =>
        match sstCascade fs key l.ssTables.reverse with
        | Except.error e => (Except.error e, l, fs)
        | Except.ok v =>
          if v = "" then (Except.ok "", l, fs)
          else (Except.ok v, { l with cache := cacheSet l.cache key v }, fs) := by
  unfold lsmGet
  rcases hcg : cacheGet l.cache key with ⟨o, c1⟩
  rw [hcg] at hc
  simp only at hc
  subst hc
  rfl

/-- Segments whose read yields the empty string are skipped by the
cascade. -/
theorem sstCascade_skip (fs : FS) (key : String) (ss rest : List SSTable)
    (h : ∀ s ∈ ss, sstGet s fs key = Except.ok "") :
    sstCascade fs key (ss ++ rest) = sstCascade fs key rest := by
  induction ss with
  | nil => simp
  | cons s t ih =>
    have hs : sstGet s fs key = Except.ok "" := h s (by simp)
    simp only [List.cons_append, sstCascade, hs]
    exact ih (fun s' hs' => h s' (by simp [hs']))

/-- Claim C5 (amended).  For a `Get` that reaches the segment cascade, the
value observed is that of the NEWEST segment whose read yields a live
(non-empty) value; in particular when two segments both hold live entries
for `k` and no newer segment holds one, the newer of the two wins.  (As
the counterexample shows, a tombstone entry in a newer segment is
skipped, not observed.) -/
theorem segment_precedence_live_entries (l : LSMTree) (fs : FS) (key v : String)
    (pre post : List SSTable) (sj : SSTable)
    (hc : (cacheGet l.cache key).1 = none)
    (hm : lookupA l.memTable key = none)
    (hreg : l.ssTables = pre ++ sj :: post)
    (hj : sstGet sj fs key = Except.ok v) (hv : v ≠ "")
    (hpost : ∀ s ∈ post, sstGet s fs key = Except.ok "") :
    (lsmGet l fs key).1 = Except.ok v := by
  have hcas : sstCascade fs key l.ssTables.reverse = Except.ok v := by
    rw [hreg]
    have hrev : (pre ++ sj :: post).reverse = post.reverse ++ (sj :: pre.reverse) := by
      simp
    rw [hrev, sstCascade_skip fs key post.reverse (sj :: pre.reverse)
      (fun s hs => hpost s (List.mem_reverse.mp hs))]
    simp only [sstCascade, hj, if_neg hv]
  rw [lsmGet_cache_miss l fs key hc, hm]
  simp only [hcas, if_neg hv]

/-- Witness for the amended claim C5: in the state above, the older
segment holds the only live entry (the newer holds a tombstone), and the
cascade observes it. -/
theorem segment_precedence_live_entries_witness :
    (cacheGet c5state.cache "k").1 = none ∧
    lookupA c5state.memTable "k" = none ∧
    c5state.ssTables = [] ++ c5seg0.1 :: [c5seg1.1] ∧
    sstGet c5seg0.1 c5fs "k" = Except.ok "x" ∧
    ("x" : String) ≠ "" ∧
    (∀ s ∈ [c5seg1.1], sstGet s c5fs "k" = Except.ok "") ∧
    (lsmGet c5state c5fs "k").1 = Except.ok "x" :=
  ⟨rfl, rfl, rfl, rfl, by decide,
    fun s hs => by
      rw [List.mem_singleton] at hs
      subst hs
      rfl,
    segment_precedence_live_entries c5state c5fs "k" "x" [] [c5seg1.1] c5seg0.1
      rfl rfl rfl rfl (by decide)
      (fun s hs => by
        rw [List.mem_singleton] at hs
        subst hs
        rfl)⟩

/-! ### Claim C6: Delete semantics -/

/-- `LSMTree.Get` only ever mutates the recency cache: buffer, registry,
WAL handle, data directory and file system come back unchanged. -/
theorem lsmGet_frame (l : LSMTree) (fs : FS) (key : String) :
    (lsmGet l fs key).2.1.memTable = l.memTable ∧
    (lsmGet l fs key).2.1.ssTables = l.ssTables ∧
    (lsmGet l fs key).2.1.wal = l.wal ∧
    (lsmGet l fs key).2.1.dataDir = l.dataDir ∧
    (lsmGet l fs key).2.2 = fs := by
  unfold lsmGet
  rcases hcg : cacheGet l.cache key with ⟨o, c1⟩
  cases o with
  | some v => exact ⟨rfl, rfl, rfl, rfl, rfl⟩
  | none =>
    cases hm : lookupA l.memTable key with
    | some v => exact ⟨rfl, rfl, rfl, rfl, rfl⟩
    | none =>
      cases hs : sstCascade fs key l.ssTables.reverse with
      | error e => exact ⟨rfl, rfl, rfl, rfl, rfl⟩
      | ok v =>
        by_cases hv : v = "" <;> simp [hv]

/-- Claim C6 (amended).  When `Get(k)` succeeds with the empty string
(absent or tombstoned), `Delete(k)` fails with the literal message
`key not found` and leaves the write buffer, WAL, segment registry and
file system unchanged — but the recency cache may have been updated by
the embedded `Get` (it caches a tombstone found in the buffer), so the
state afterwards is exactly the post-`Get` state.  When `Get(k)` succeeds
with a non-empty value, `Delete(k)` writes a tombstone via `Set(k, "")`
on the post-`Get` state and returns its outcome. -/
theorem delete_key_not_found_semantics (l : LSMTree) (fs : FS) (key v : String)
    (h : (lsmGet l fs key).1 = Except.ok v) :
    (v = "" →
      lsmDelete l fs key = (Except.error "key not found", (lsmGet l fs key).2) ∧
      (lsmDelete l fs key).2.1.memTable = l.memTable ∧
      (lsmDelete l fs key).2.1.ssTables = l.ssTables ∧
      (lsmDelete l fs key).2.1.wal = l.wal ∧
      (lsmDelete l fs key).2.2 = fs) ∧
    (v ≠ "" → ∀ r : LSMTree × FS,
      lsmSet (lsmGet l fs key).2.1 (lsmGet l fs key).2.2 key "" = (Except.ok (), r) →
      lsmDelete l fs key = (Except.ok (), r)) := by
  have hsplit : lsmGet l fs key = (Except.ok v, (lsmGet l fs key).2) := by
    rcases hg : lsmGet l fs key with ⟨r1, st⟩
    rw [hg] at h
    simp only at h
    subst h
    rfl
  constructor
  · intro hv
    subst hv
    have hd : lsmDelete l fs key = (Except.error "key not found", (lsmGet l fs key).2) := by
      rcases hst : (lsmGet l fs key).2 with ⟨l1, fs1⟩
      unfold lsmDelete
      rw [hsplit, hst]
      rfl
    refine ⟨hd, ?_, ?_, ?_, ?_⟩
    · rw [hd]
      exact (lsmGet_frame l fs key).1
    · rw [hd]
      exact (lsmGet_frame l fs key).2.1
    · rw [hd]
      exact (lsmGet_frame l fs key).2.2.1
    · rw [hd]
      exact (lsmGet_frame l fs key).2.2.2.2
  · intro hv r hset
    obtain ⟨r1, r2⟩ := r
    rcases hst : (lsmGet l fs key).2 with ⟨l1, fs1⟩
    rw [hst] at hset
    unfold lsmDelete
    rw [hsplit, hst]
    simp only at hset ⊢
    simp only [if_neg hv, hset]

/-- Witness for the amended claim C6: deleting an absent key on a fresh
engine fails with `key not found`. -/
theorem delete_key_not_found_semantics_witness :
    (lsmGet (newLSMTree "d") (initFS "d") "k").1 = Except.ok "" ∧
    ((("" : String) = "" →
      lsmDelete (newLSMTree "d") (initFS "d") "k" =
        (Except.error "key not found", (lsmGet (newLSMTree "d") (initFS "d") "k").2) ∧
      (lsmDelete (newLSMTree "d") (initFS "d") "k").2.1.memTable =
        (newLSMTree "d").memTable ∧
      (lsmDelete (newLSMTree "d") (initFS "d") "k").2.1.ssTables =
        (newLSMTree "d").ssTables ∧
      (lsmDelete (newLSMTree "d") (initFS "d") "k").2.1.wal = (newLSMTree "d").wal ∧
      (lsmDelete (newLSMTree "d") (initFS "d") "k").2.2 = initFS "d") ∧
     (("" : String) ≠ "" → ∀ r : LSMTree × FS,
      lsmSet (lsmGet (newLSMTree "d") (initFS "d") "k").2.1
          (lsmGet (newLSMTree "d") (initFS "d") "k").2.2 "k" "" = (Except.ok (), r) →
      lsmDelete (newLSMTree "d") (initFS "d") "k" = (Except.ok (), r))) :=
  ⟨rfl, delete_key_not_found_semantics (newLSMTree "d") (initFS "d") "k" "" rfl⟩

/-! ### Claim C3: WAL round trip across restart -/

/-- The public write operations of the engine. -/
inductive WriteOp where
  | setW (key value : String)
  | delW (key : String)
deriving DecidableEq

def applyWrite (s : LSMTree × FS) : WriteOp → LSMTree × FS
  | WriteOp.setW k v => (lsmSet s.1 s.2 k v).2
  | WriteOp.delW k => (lsmDelete s.1 s.2 k).2

def applyWrites (ops : List WriteOp) (s : LSMTree × FS) : LSMTree × FS :=
  ops.foldl applyWrite s

/-- A key is representable in the one-line-per-entry file format when it
contains neither the comma separator nor a newline (the spec's grammar:
"keys containing commas or newlines are not representable"). -/
def goodKey (k : String) : Bool :=
  !(k.data.contains ',') && !(k.data.contains '\n')

/-- A value is representable when it contains no newline and does not end
in a carriage return (the scanner strips one trailing `\r` per line when
reading the file back). -/
def goodVal (v : String) : Bool :=
  !(v.data.contains '\n') && decide (v.data.getLast? ≠ some '\r')

/-- A representable write: representable key and value, and a written
line that fits in the scanner's maximum token size. -/
def goodOp : WriteOp → Bool
  | WriteOp.setW k v => goodKey k && goodVal v &&
      decide (k.length + 1 + v.length < maxScanTokenSize)
  | WriteOp.delW k => goodKey k && decide (k.length + 1 < maxScanTokenSize)

/-- The map read back from (optional) WAL file contents — the parsing
loop of `WAL.Recover`. -/
def walParse : Option String → List (String × String)
  | none => []
  | some content =>
    (splitLines content.data).foldl
      (fun acc line =>
        match splitFirst line with
        | some (k, v) => insertA acc (ofData k) (ofData v)
        | none => acc) []

/-- File contents consisting of whole lines: absent, empty, or ending in
a newline. -/
def linesTerminated : Option String → Prop
  | none => True
  | some c => c.data = [] ∨ c.data.getLast? = some '\n'

/-- File contents whose raw lines all fit in the scanner's token size, so
that reading the file back completes without `ErrTooLong`. -/
def linesShort : Option String → Prop
  | none => True
  | some c => scanOK c.data = true

theorem walRecover_eq (w : WAL) (fs : FS)
    (h : linesShort (osRead fs w.filePath)) :
    walRecover w fs = Except.ok (walParse (osRead fs w.filePath)) := by
  unfold walRecover walParse
  cases ho : osRead fs w.filePath with
  | none => rfl
  | some c =>
    rw [ho] at h
    have h2 : scanOK c.data = true := h
    simp only [h2, if_true]

theorem not_mem_of_contains_false {l : List Char} {a : Char}
    (h : l.contains a = false) : a ∉ l := by
  intro hm
  have hme := List.elem_eq_true_of_mem hm
  rw [show l.elem a = l.contains a from rfl, h] at hme
  exact Bool.false_ne_true hme

theorem goodKey_spec (k : String) (h : goodKey k = true) :
    ',' ∉ k.data ∧ '\n' ∉ k.data := by
  unfold goodKey at h
  rw [Bool.and_eq_true, Bool.not_eq_true', Bool.not_eq_true'] at h
  exact ⟨not_mem_of_contains_false h.1, not_mem_of_contains_false h.2⟩

theorem goodVal_spec (v : String) (h : goodVal v = true) :
    '\n' ∉ v.data ∧ v.data.getLast? ≠ some '\r' := by
  unfold goodVal at h
  rw [Bool.and_eq_true, Bool.not_eq_true'] at h
  exact ⟨not_mem_of_contains_false h.1, of_decide_eq_true h.2⟩

theorem getLast?_cons_ne_nil {t : List Char} {c : Char} (h : t ≠ []) :
    (c :: t).getLast? = t.getLast? := by
  cases ht : t.getLast? with
  | none => exact absurd (List.getLast?_eq_none_iff.mp ht) h
  | some a => simp [List.getLast?_cons, ht]

theorem splitRaw_ne_nil (xs : List Char) (h : xs ≠ []) : splitRaw xs ≠ [] := by
  match xs, h with
  | c :: t, _ =>
    unfold splitRaw
    by_cases hc : c = '\n'
    · simp [hc]
    · simp only [hc, if_false]
      cases splitRaw t <;> simp

theorem splitRaw_append (xs ys : List Char)
    (h : xs = [] ∨ xs.getLast? = some '\n') :
    splitRaw (xs ++ ys) = splitRaw xs ++ splitRaw ys := by
  induction xs with
  | nil => simp [splitRaw]
  | cons c t ih =>
    have hlast : (c :: t).getLast? = some '\n' := by
      rcases h with h | h
      · exact absurd h (by simp)
      · exact h
    by_cases hc : c = '\n'
    · subst hc
      by_cases ht : t = []
      · subst ht
        simp [splitRaw]
      · have ht' : t.getLast? = some '\n' := by
          rwa [getLast?_cons_ne_nil ht] at hlast
        have hih := ih (Or.inr ht')
        show splitRaw ('\n' :: (t ++ ys)) = splitRaw ('\n' :: t) ++ splitRaw ys
        rw [show splitRaw ('\n' :: (t ++ ys)) = [] :: splitRaw (t ++ ys) from by
          simp [splitRaw]]
        rw [show splitRaw ('\n' :: t) = [] :: splitRaw t from by simp [splitRaw]]
        rw [hih]
        simp
    · have ht : t ≠ [] := by
        intro he
        subst he
        simp at hlast
        exact hc hlast
      have ht' : t.getLast? = some '\n' := by
        rwa [getLast?_cons_ne_nil ht] at hlast
      have hih := ih (Or.inr ht')
      have hsplit := splitRaw_ne_nil t ht
      show splitRaw (c :: (t ++ ys)) = splitRaw (c :: t) ++ splitRaw ys
      cases hs : splitRaw t with
      | nil => exact absurd hs hsplit
      | cons l ls =>
        have h1 : splitRaw (c :: (t ++ ys)) = (c :: l) :: (ls ++ splitRaw ys) := by
          rw [show splitRaw (c :: (t ++ ys)) =
              match splitRaw (t ++ ys) with
              | [] => [[c]]
              | l :: ls => (c :: l) :: ls from by simp [splitRaw, hc]]
          rw [hih, hs]
          simp
        have h2 : splitRaw (c :: t) = (c :: l) :: ls := by
          rw [show splitRaw (c :: t) =
              match splitRaw t with
              | [] => [[c]]
              | l :: ls => (c :: l) :: ls from by simp [splitRaw, hc]]
          rw [hs]
        rw [h1, h2]
        simp

theorem splitRaw_single_line (zs : List Char) (h : '\n' ∉ zs) :
    splitRaw (zs ++ ['\n']) = [zs] := by
  induction zs with
  | nil => simp [splitRaw]
  | cons c t ih =>
    have hc : c ≠ '\n' := fun he => h (he ▸ List.mem_cons_self c t)
    have ht : '\n' ∉ t := fun hm => h (List.mem_cons_of_mem c hm)
    have hih := ih ht
    show splitRaw (c :: (t ++ ['\n'])) = [c :: t]
    rw [show splitRaw (c :: (t ++ ['\n'])) =
        match splitRaw (t ++ ['\n']) with
        | [] => [[c]]
        | l :: ls => (c :: l) :: ls from by simp [splitRaw, hc]]
    rw [hih]

theorem dropCR_eq_self {l : List Char} (h : l.getLast? ≠ some '\r') :
    dropCR l = l := by
  unfold dropCR
  rw [if_neg h]

theorem splitLines_append (xs ys : List Char)
    (h : xs = [] ∨ xs.getLast? = some '\n') :
    splitLines (xs ++ ys) = splitLines xs ++ splitLines ys := by
  unfold splitLines
  rw [splitRaw_append xs ys h, List.map_append]

theorem splitLines_single_line (zs : List Char) (h : '\n' ∉ zs)
    (hcr : zs.getLast? ≠ some '\r') :
    splitLines (zs ++ ['\n']) = [zs] := by
  unfold splitLines
  rw [splitRaw_single_line zs h]
  show [dropCR zs] = [zs]
  rw [dropCR_eq_self hcr]

theorem scanOK_append (xs ys : List Char)
    (h : xs = [] ∨ xs.getLast? = some '\n')
    (h1 : scanOK xs = true) (h2 : scanOK ys = true) :
    scanOK (xs ++ ys) = true := by
  unfold scanOK at h1 h2 ⊢
  rw [splitRaw_append xs ys h, List.all_append, h1, h2]
  rfl

theorem scanOK_single_line (zs : List Char) (h : '\n' ∉ zs)
    (hlen : zs.length < maxScanTokenSize) :
    scanOK (zs ++ ['\n']) = true := by
  unfold scanOK
  rw [splitRaw_single_line zs h]
  show (decide (zs.length < maxScanTokenSize) && true) = true
  rw [decide_eq_true hlen]
  rfl

theorem getLast?_append_cons (xs : List Char) (c : Char) (ys : List Char) :
    (xs ++ c :: ys).getLast? = (c :: ys).getLast? := by
  induction xs with
  | nil => rfl
  | cons a t ih =>
    show (a :: (t ++ c :: ys)).getLast? = (c :: ys).getLast?
    rw [getLast?_cons_ne_nil (by simp), ih]

/-- A `key,value` line whose value does not end in a carriage return does
not end in one either (its last character is the value's, or the comma). -/
theorem line_not_cr (k v : String) (hv : v.data.getLast? ≠ some '\r') :
    (k.data ++ ',' :: v.data).getLast? ≠ some '\r' := by
  rw [getLast?_append_cons]
  by_cases hvd : v.data = []
  · rw [hvd]
    decide
  · rw [getLast?_cons_ne_nil hvd]
    exact hv

theorem line_no_newline (k v : String) (hkn : '\n' ∉ k.data)
    (hvn : '\n' ∉ v.data) : '\n' ∉ k.data ++ ',' :: v.data := by
  intro hm
  rcases List.mem_append.mp hm with hm | hm
  · exact hkn hm
  · rcases List.mem_cons.mp hm with hm | hm
    · exact absurd hm (by decide)
    · exact hvn hm

theorem line_length (k v : String) :
    (k.data ++ ',' :: v.data).length = k.length + 1 + v.length := by
  show (k.data ++ ',' :: v.data).length = k.data.length + 1 + v.data.length
  rw [List.length_append, List.length_cons]
  omega

theorem splitFirst_round (k v : List Char) (h : ',' ∉ k) :
    splitFirst (k ++ ',' :: v) = some (k, v) := by
  induction k with
  | nil => simp [splitFirst]
  | cons c t ih =>
    have hc : c ≠ ',' := fun he => h (he ▸ List.mem_cons_self c t)
    have ht : ',' ∉ t := fun hm => h (List.mem_cons_of_mem c hm)
    have hih := ih ht
    show splitFirst (c :: (t ++ ',' :: v)) = some (c :: t, v)
    rw [show splitFirst (c :: (t ++ ',' :: v)) =
        match splitFirst (t ++ ',' :: v) with
        | none => none
        | some (a, b) => some (c :: a, b) from by simp [splitFirst, hc]]
    rw [hih]

theorem walParse_append_line (old k v : String)
    (hterm : linesTerminated (some old))
    (hkc : ',' ∉ k.data) (hkn : '\n' ∉ k.data) (hvn : '\n' ∉ v.data)
    (hvr : v.data.getLast? ≠ some '\r') :
    walParse (some (old ++ (k ++ "," ++ v ++ "\n"))) =
      insertA (walParse (some old)) k v := by
  simp only [walParse]
  have hdata : (old ++ (k ++ "," ++ v ++ "\n")).data
      = old.data ++ ((k.data ++ ',' :: v.data) ++ ['\n']) := by
    show old.data ++ (((k.data ++ [',']) ++ v.data) ++ ['\n'])
        = old.data ++ ((k.data ++ ',' :: v.data) ++ ['\n'])
    simp
  rw [hdata, splitLines_append old.data _ hterm,
    splitLines_single_line _ (line_no_newline k v hkn hvn) (line_not_cr k v hvr),
    List.foldl_append]
  simp only [List.foldl_cons, List.foldl_nil, splitFirst_round k.data v.data hkc]
  rfl

/-- The invariant of a crash-free, flush-free run: no segments, the WAL
file parses back to exactly the write buffer, the cache is coherent with
the buffer, and the buffer holds at most `n` entries. -/
structure EngInv (d : String) (n : Nat) (s : LSMTree × FS) : Prop where
  hdir : s.1.dataDir = d
  hwal : s.1.wal = newWAL d
  hsst : s.1.ssTables = []
  hrec : walParse (osRead s.2 (pathJoin d "wal.log")) = s.1.memTable
  hterm : linesTerminated (osRead s.2 (pathJoin d "wal.log"))
  hshort : linesShort (osRead s.2 (pathJoin d "wal.log"))
  hcwf : cacheWF s.1.cache
  hcoh : ∀ k e, lookupA s.1.cache.entries k = some e →
    lookupA s.1.memTable k = some e.value
  hlen : s.1.memTable.length ≤ n

theorem EngInv_mono {d : String} {n m : Nat} {s : LSMTree × FS}
    (h : EngInv d n s) (hnm : n ≤ m) : EngInv d m s :=
  ⟨h.hdir, h.hwal, h.hsst, h.hrec, h.hterm, h.hshort, h.hcwf, h.hcoh,
    le_trans h.hlen hnm⟩

theorem EngInv_init (d : String) : EngInv d 0 (initState d) := by
  refine ⟨rfl, rfl, rfl, rfl, ?_, ?_, cacheWF_newCache 1000, ?_, le_refl 0⟩
  · show linesTerminated none
    trivial
  · show linesShort none
    trivial
  · intro k e he
    simp [initState, newLSMTree, newCache, lookupA] at he

theorem walLog_spec (w : WAL) (fs : FS) (k v : String) (fs1 : FS)
    (h : walLog w fs k v = Except.ok fs1) :
    (∃ old, osRead fs w.filePath = some old ∧
      fs1 = { fs with
        files := insertA fs.files w.filePath (old ++ (k ++ "," ++ v ++ "\n")) }) ∨
    (osRead fs w.filePath = none ∧
      fs1 = { fs with
        files := insertA fs.files w.filePath (k ++ "," ++ v ++ "\n") }) := by
  unfold walLog osAppend at h
  cases hl : lookupA fs.files w.filePath with
  | some old =>
    left
    rw [hl] at h
    simp only at h
    refine ⟨old, hl, ?_⟩
    cases h with
    | refl => rfl
  | none =>
    right
    rw [hl] at h
    unfold osCreate at h
    rw [if_neg (by simp [hl])] at h
    by_cases hp : parentDir w.filePath ∈ fs.dirs
    · rw [if_pos hp] at h
      simp only at h
      refine ⟨hl, ?_⟩
      cases h with
      | refl => rfl
    · rw [if_neg hp] at h
      simp at h

/-- Inserting a value that agrees with the buffer keeps the cache
coherent with the buffer. -/
theorem hcoh_cacheSet (c : Cache) (mem : List (String × String)) (k v : String)
    (hwf : cacheWF c)
    (hcoh : ∀ k' e, k' ≠ k → lookupA c.entries k' = some e →
      lookupA mem k' = some e.value)
    (hv : lookupA mem k = some v) :
    ∀ k' e, lookupA (cacheSet c k v).entries k' = some e →
      lookupA mem k' = some e.value := by
  intro k' e he
  have hent : (cacheSet c k v).entries =
      insertA (if c.maxSize ≤ c.entries.length then cacheEvict c else c).entries k
        { value := v, timestamp := 0 } := by
    simp only [cacheSet]
  rw [hent] at he
  by_cases hk : k' = k
  · subst hk
    rw [lookupA_insertA_self] at he
    cases he with
    | refl => exact hv
  · rw [lookupA_insertA_ne _ _ _ _ hk] at he
    have hc1 : lookupA c.entries k' = some e := by
      by_cases hcap : c.maxSize ≤ c.entries.length
      · rw [if_pos hcap] at he
        unfold cacheEvict at he
        cases hm : minKeyA c.accessCount with
        | none =>
          rw [hm] at he
          exact he
        | some p =>
          rw [hm] at he
          simp only at he
          rw [lookupA_eraseA c.entries p.1 k' hwf.2] at he
          by_cases hek : k' = p.1
          · rw [if_pos hek] at he
            exact absurd he (by simp)
          · rwa [if_neg hek] at he
      · rw [if_neg hcap] at he
        exact he
    exact hcoh k' e hk hc1

/-- `LSMTree.Get` on an engine without segments returns the buffer's
value for the key, or the empty string when the key is absent. -/
theorem lsmGet_val (s : LSMTree × FS) (key : String)
    (hsst : s.1.ssTables = [])
    (hcoh : ∀ k e, lookupA s.1.cache.entries k = some e →
      lookupA s.1.memTable k = some e.value) :
    (lsmGet s.1 s.2 key).1 = Except.ok ((lookupA s.1.memTable key).getD "") := by
  unfold lsmGet
  rcases hcg : cacheGet s.1.cache key with ⟨o, c1⟩
  cases o with
  | some v =>
    have hl : ∃ e, lookupA s.1.cache.entries key = some e ∧ e.value = v := by
      unfold cacheGet at hcg
      cases hle : lookupA s.1.cache.entries key with
      | none =>
        rw [hle] at hcg
        simp at hcg
      | some e =>
        rw [hle] at hcg
        simp only at hcg
        refine ⟨e, rfl, ?_⟩
        have := congrArg Prod.fst hcg
        simpa using this
    obtain ⟨e, hle, hev⟩ := hl
    rw [hcoh key e hle]
    simp [hev]
  | none =>
    cases hm : lookupA s.1.memTable key with
    | some v => simp [hm]
    | none =>
      rw [hsst]
      simp [sstCascade, hm]

/-- Under the no-segment invariant, `Get` either bumps an access count or
caches a value read from the buffer; the cache is the only field it can
change. -/
theorem lsmGet_cache_cases (s : LSMTree × FS) (key : String)
    (hsst : s.1.ssTables = []) :
    (lsmGet s.1 s.2 key).2.1.cache = (cacheGet s.1.cache key).2 ∨
    (∃ v, lookupA s.1.memTable key = some v ∧
      (lsmGet s.1 s.2 key).2.1.cache = cacheSet s.1.cache key v) := by
  unfold lsmGet
  rcases hcg : cacheGet s.1.cache key with ⟨o, c1⟩
  cases o with
  | some v =>
    left
    rfl
  | none =>
    cases hm : lookupA s.1.memTable key with
    | some v =>
      right
      exact ⟨v, rfl, rfl⟩
    | none =>
      left
      rw [hsst]
      simp only [List.reverse_nil, sstCascade, if_pos rfl]
      have : c1 = s.1.cache := by
        unfold cacheGet at hcg
        cases hle : lookupA s.1.cache.entries key with
        | none =>
          rw [hle] at hcg
          have := congrArg Prod.snd hcg
          simpa using this.symm
        | some e =>
          rw [hle] at hcg
          simp at hcg
      simp [this]

theorem line_data (k v : String) :
    (k ++ "," ++ v ++ "\n").data = (k.data ++ ',' :: v.data) ++ ['\n'] := by
  show ((k.data ++ [',']) ++ v.data) ++ ['\n'] = (k.data ++ ',' :: v.data) ++ ['\n']
  simp

theorem lineTerm (old k v : String) :
    linesTerminated (some (old ++ (k ++ "," ++ v ++ "\n"))) := by
  show (old ++ (k ++ "," ++ v ++ "\n")).data = [] ∨
    (old ++ (k ++ "," ++ v ++ "\n")).data.getLast? = some '\n'
  right
  have hdata : (old ++ (k ++ "," ++ v ++ "\n")).data
      = (old.data ++ (k.data ++ ',' :: v.data)) ++ ['\n'] := by
    show old.data ++ (((k.data ++ [',']) ++ v.data) ++ ['\n'])
        = (old.data ++ (k.data ++ ',' :: v.data)) ++ ['\n']
    simp
  rw [hdata, List.getLast?_concat]

theorem lineTermSingle (k v : String) :
    linesTerminated (some (k ++ "," ++ v ++ "\n")) := by
  show (k ++ "," ++ v ++ "\n").data = [] ∨
    (k ++ "," ++ v ++ "\n").data.getLast? = some '\n'
  right
  rw [line_data, List.getLast?_concat]

theorem walParse_one_line (k v : String)
    (hkc : ',' ∉ k.data) (hkn : '\n' ∉ k.data) (hvn : '\n' ∉ v.data)
    (hvr : v.data.getLast? ≠ some '\r') :
    walParse (some (k ++ "," ++ v ++ "\n")) = [(k, v)] := by
  simp only [walParse]
  rw [line_data,
    splitLines_single_line _ (line_no_newline k v hkn hvn) (line_not_cr k v hvr)]
  simp only [List.foldl_cons, List.foldl_nil, splitFirst_round k.data v.data hkc]
  rfl

theorem lsmGet_inv (d : String) (n : Nat) (s : LSMTree × FS) (key : String)
    (h : EngInv d n s) : EngInv d n (lsmGet s.1 s.2 key).2 := by
  obtain ⟨hdir, hwal, hsst, hrec, hterm, hshort, hcwf, hcoh, hlen⟩ := h
  obtain ⟨hfm, hfsst, hfw, hfd, hff⟩ := lsmGet_frame s.1 s.2 key
  have hcache := lsmGet_cache_cases s key hsst
  refine ⟨?_, ?_, ?_, ?_, ?_, ?_, ?_, ?_, ?_⟩
  · rw [hfd, hdir]
  · rw [hfw, hwal]
  · rw [hfsst, hsst]
  · rw [hff, hfm]
    exact hrec
  · rw [hff]
    exact hterm
  · rw [hff]
    exact hshort
  · rcases hcache with hc | ⟨v, hv, hc⟩
    · rw [hc]
      exact cacheWF_get _ _ hcwf
    · rw [hc]
      exact cacheWF_set _ _ _ hcwf
  · intro k e he
    rw [hfm]
    rcases hcache with hc | ⟨v, hv, hc⟩
    · rw [hc, (cacheGet_entries s.1.cache key).1] at he
      exact hcoh k e he
    · rw [hc] at he
      exact hcoh_cacheSet s.1.cache s.1.memTable key v hcwf
        (fun k' e' _ he' => hcoh k' e' he') hv k e he
  · rw [hfm]
    exact hlen

theorem lsmSet_inv (d : String) (n : Nat) (s : LSMTree × FS) (k v : String)
    (h : EngInv d n s) (hk : goodKey k = true) (hvl : goodVal v = true)
    (hsz : k.length + 1 + v.length < maxScanTokenSize)
    (hthr : n + 1 < memTableSizeThreshold) :
    EngInv d (n + 1) (lsmSet s.1 s.2 k v).2 := by
  obtain ⟨hdir, hwal, hsst, hrec, hterm, hshort, hcwf, hcoh, hlen⟩ := h
  obtain ⟨hkc, hkn⟩ := goodKey_spec k hk
  obtain ⟨hvn, hvr⟩ := goodVal_spec v hvl
  have hpath : s.1.wal.filePath = pathJoin d "wal.log" := by
    rw [hwal]
    rfl
  cases hw : walLog s.1.wal s.2 k v with
  | error e =>
    have hres : (lsmSet s.1 s.2 k v).2 = (s.1, s.2) := by
      unfold lsmSet
      rw [hw]
    rw [hres]
    exact EngInv_mono ⟨hdir, hwal, hsst, hrec, hterm, hshort, hcwf, hcoh, hlen⟩
      (Nat.le_succ n)
  | ok fs1 =>
    have hmlen : (insertA s.1.memTable k v).length ≤ n + 1 :=
      le_trans (length_insertA_le _ _ _) (by omega)
    have hnoflush : ¬ (memTableSizeThreshold ≤ (insertA s.1.memTable k v).length) := by
      omega
    have hres : (lsmSet s.1 s.2 k v).2 =
        ({ s.1 with memTable := insertA s.1.memTable k v,
                    cache := cacheSet s.1.cache k v }, fs1) := by
      unfold lsmSet
      rw [hw]
      simp only [if_neg hnoflush]
    rw [hres]
    have hnewrec : osRead fs1 (pathJoin d "wal.log") =
        some ((osRead s.2 (pathJoin d "wal.log")).getD "" ++ (k ++ "," ++ v ++ "\n")) ∨
      True := Or.inr trivial
    rcases walLog_spec s.1.wal s.2 k v fs1 hw with ⟨old, hold, hfs1⟩ | ⟨hnone, hfs1⟩
    · rw [hpath] at hold
      have hread : osRead fs1 (pathJoin d "wal.log") =
          some (old ++ (k ++ "," ++ v ++ "\n")) := by
        rw [hfs1]
        show lookupA (insertA s.2.files s.1.wal.filePath _) (pathJoin d "wal.log") = _
        rw [hpath]
        exact lookupA_insertA_self _ _ _
      have htermold : linesTerminated (some old) := by
        rw [hold] at hterm
        exact hterm
      have hshortold : scanOK old.data = true := by
        rw [hold] at hshort
        exact hshort
      refine ⟨hdir, hwal, hsst, ?_, ?_, ?_, ?_, ?_, ?_⟩
      · show walParse (osRead fs1 (pathJoin d "wal.log")) = insertA s.1.memTable k v
        rw [hread, walParse_append_line old k v htermold hkc hkn hvn hvr]
        rw [hold] at hrec
        rw [hrec]
      · show linesTerminated (osRead fs1 (pathJoin d "wal.log"))
        rw [hread]
        exact lineTerm old k v
      · show linesShort (osRead fs1 (pathJoin d "wal.log"))
        rw [hread]
        show scanOK (old ++ (k ++ "," ++ v ++ "\n")).data = true
        rw [show (old ++ (k ++ "," ++ v ++ "\n")).data
            = old.data ++ ((k.data ++ ',' :: v.data) ++ ['\n']) from by
          show old.data ++ (((k.data ++ [',']) ++ v.data) ++ ['\n'])
              = old.data ++ ((k.data ++ ',' :: v.data) ++ ['\n'])
          simp]
        exact scanOK_append old.data _ htermold hshortold
          (scanOK_single_line _ (line_no_newline k v hkn hvn)
            (by rw [line_length]; exact hsz))
      · exact cacheWF_set _ _ _ hcwf
      · intro k' e he
        exact hcoh_cacheSet s.1.cache (insertA s.1.memTable k v) k v hcwf
          (fun k'' e' hne he' => by
            rw [lookupA_insertA_ne _ _ _ _ hne]
            exact hcoh k'' e' he')
          (lookupA_insertA_self _ _ _) k' e he
      · exact hmlen
    · rw [hpath] at hnone
      have hread : osRead fs1 (pathJoin d "wal.log") =
          some (k ++ "," ++ v ++ "\n") := by
        rw [hfs1]
        show lookupA (insertA s.2.files s.1.wal.filePath _) (pathJoin d "wal.log") = _
        rw [hpath]
        exact lookupA_insertA_self _ _ _
      have hmem_nil : s.1.memTable = [] := by
        rw [hnone] at hrec
        exact hrec.symm ▸ rfl
      refine ⟨hdir, hwal, hsst, ?_, ?_, ?_, ?_, ?_, ?_⟩
      · show walParse (osRead fs1 (pathJoin d "wal.log")) = insertA s.1.memTable k v
        rw [hread, walParse_one_line k v hkc hkn hvn hvr, hmem_nil]
        rfl
      · show linesTerminated (osRead fs1 (pathJoin d "wal.log"))
        rw [hread]
        exact lineTermSingle k v
      · show linesShort (osRead fs1 (pathJoin d "wal.log"))
        rw [hread]
        show scanOK (k ++ "," ++ v ++ "\n").data = true
        rw [line_data]
        exact scanOK_single_line _ (line_no_newline k v hkn hvn)
          (by rw [line_length]; exact hsz)
      · exact cacheWF_set _ _ _ hcwf
      · intro k' e he
        exact hcoh_cacheSet s.1.cache (insertA s.1.memTable k v) k v hcwf
          (fun k'' e' hne he' => by
            rw [lookupA_insertA_ne _ _ _ _ hne]
            exact hcoh k'' e' he')
          (lookupA_insertA_self _ _ _) k' e he
      · exact hmlen

theorem lsmDelete_inv (d : String) (n : Nat) (s : LSMTree × FS) (k : String)
    (h : EngInv d n s) (hk : goodKey k = true)
    (hsz : k.length + 1 < maxScanTokenSize)
    (hthr : n + 1 < memTableSizeThreshold) :
    EngInv d (n + 1) (lsmDelete s.1 s.2 k).2 := by
  have hg : EngInv d n (lsmGet s.1 s.2 k).2 := lsmGet_inv d n s k h
  have hval : (lsmGet s.1 s.2 k).1 = Except.ok ((lookupA s.1.memTable k).getD "") :=
    lsmGet_val s k h.hsst h.hcoh
  have hsplit : lsmGet s.1 s.2 k =
      (Except.ok ((lookupA s.1.memTable k).getD ""), (lsmGet s.1 s.2 k).2) := by
    rcases hgg : lsmGet s.1 s.2 k with ⟨r, st⟩
    rw [hgg] at hval
    simp only at hval
    subst hval
    rfl
  rcases hst : (lsmGet s.1 s.2 k).2 with ⟨l1, fs1⟩
  rw [hst] at hg
  by_cases hv : (lookupA s.1.memTable k).getD "" = ""
  · have hres : (lsmDelete s.1 s.2 k).2 = (l1, fs1) := by
      unfold lsmDelete
      rw [hsplit, hst, hv]
      rfl
    rw [hres]
    exact EngInv_mono hg (Nat.le_succ n)
  · have hset : EngInv d (n + 1) (lsmSet l1 fs1 k "").2 :=
      lsmSet_inv d n (l1, fs1) k "" hg hk (by decide)
        (by
          show k.length + 1 + ("" : String).length < maxScanTokenSize
          have h0 : ("" : String).length = 0 := rfl
          omega) hthr
    have hres : (lsmDelete s.1 s.2 k).2 = (lsmSet l1 fs1 k "").2 := by
      unfold lsmDelete
      rw [hsplit, hst]
      simp only [if_neg hv]
      rcases hS : lsmSet l1 fs1 k "" with ⟨r2, l2, fs2⟩
      cases r2 <;> rfl
    rw [hres]
    exact hset

theorem applyWrite_inv (d : String) (n : Nat) (s : LSMTree × FS) (op : WriteOp)
    (h : EngInv d n s) (hop : goodOp op = true)
    (hthr : n + 1 < memTableSizeThreshold) :
    EngInv d (n + 1) (applyWrite s op) := by
  cases op with
  | setW k v =>
    have hkv : (goodKey k = true ∧ goodVal v = true) ∧
        decide (k.length + 1 + v.length < maxScanTokenSize) = true := by
      rw [show goodOp (WriteOp.setW k v) = (goodKey k && goodVal v &&
          decide (k.length + 1 + v.length < maxScanTokenSize)) from rfl,
        Bool.and_eq_true, Bool.and_eq_true] at hop
      exact hop
    exact lsmSet_inv d n s k v h hkv.1.1 hkv.1.2 (of_decide_eq_true hkv.2) hthr
  | delW k =>
    have hkv : goodKey k = true ∧
        decide (k.length + 1 < maxScanTokenSize) = true := by
      rw [show goodOp (WriteOp.delW k) = (goodKey k &&
          decide (k.length + 1 < maxScanTokenSize)) from rfl,
        Bool.and_eq_true] at hop
      exact hop
    exact lsmDelete_inv d n s k h hkv.1 (of_decide_eq_true hkv.2) hthr

theorem applyWrites_inv (d : String) (ops : List WriteOp) :
    ∀ (n : Nat) (s : LSMTree × FS), EngInv d n s →
      (∀ op ∈ ops, goodOp op = true) →
      n + ops.length < memTableSizeThreshold →
      EngInv d (n + ops.length) (applyWrites ops s) := by
  induction ops with
  | nil =>
    intro n s h _ _
    simpa [applyWrites] using h
  | cons op t ih =>
    intro n s h hgood hlen
    have hthr : n + 1 < memTableSizeThreshold := by
      simp only [List.length_cons] at hlen
      omega
    have h1 := applyWrite_inv d n s op h (hgood op (by simp)) hthr
    have h2 := ih (n + 1) (applyWrite s op) h1
      (fun o ho => hgood o (by simp [ho]))
      (by simp only [List.length_cons] at hlen; omega)
    have hlen_eq : n + 1 + t.length = n + (op :: t).length := by
      simp only [List.length_cons]
      omega
    rw [hlen_eq] at h2
    simpa [applyWrites] using h2

theorem nodup_keys_walParse (o : Option String) :
    ((walParse o).map Prod.fst).Nodup := by
  cases o with
  | none => simp [walParse]
  | some content =>
    simp only [walParse]
    have hgen : ∀ (lines : List (List Char)) (acc : List (String × String)),
        (acc.map Prod.fst).Nodup →
        ((lines.foldl
          (fun acc line =>
            match splitFirst line with
            | some (k, v) => insertA acc (ofData k) (ofData v)
            | none => acc) acc).map Prod.fst).Nodup := by
      intro lines
      induction lines with
      | nil => intro acc hacc; exact hacc
      | cons line rest ih =>
        intro acc hacc
        simp only [List.foldl_cons]
        cases hsf : splitFirst line with
        | none =>
          simp only [hsf]
          exact ih acc hacc
        | some kv =>
          obtain ⟨kk, vv⟩ := kv
          simp only [hsf]
          exact ih _ (nodup_keys_insertA _ _ _ hacc)
    exact hgen _ [] (by simp)

theorem lsmList_val (s : LSMTree × FS) (hsst : s.1.ssTables = []) :
    (lsmList s.1 s.2).1 = Except.ok (s.1.memTable.foldl
      (fun acc kv => if kv.2 = "" then acc else insertA acc kv.1 kv.2) []) := by
  unfold lsmList
  rw [hsst]
  simp [listCascade]

theorem lsmRecover_components (l : LSMTree) (fs : FS)
    (hsh : linesShort (osRead fs l.wal.filePath)) :
    ∃ fs', (lsmRecover l fs).2 =
      ({ l with memTable := ((walParse (osRead fs l.wal.filePath)).foldl
          (fun m kv => insertA m kv.1 kv.2) l.memTable) }, fs') := by
  unfold lsmRecover
  rw [walRecover_eq l.wal fs hsh]
  simp only []
  by_cases he : walParse (osRead fs l.wal.filePath) = []
  · rw [if_pos he]
    exact ⟨fs, rfl⟩
  · rw [if_neg he]
    unfold walClear
    cases osRead fs l.wal.filePath with
    | none => exact ⟨fs, rfl⟩
    | some c => exact ⟨{ fs with files := insertA fs.files l.wal.filePath "" }, rfl⟩

/-- Claim C3 (amended).  WAL round trip across restart: for any sequence
of writes whose keys contain no comma or newline, whose values contain no
newline and do not end in a carriage return (the scanner strips one
trailing `\r` per line), whose written lines each fit in the scanner's
64 KiB token limit, and short enough that no automatic flush occurs
(fewer writes than the buffer threshold), a restart — a fresh engine on
the same data directory — followed by `Recover` yields the same `Get`
result for every key and the same `List` result as before the restart. -/
theorem wal_round_trip (d : String) (ops : List WriteOp) (key : String)
    (hgood : ∀ op ∈ ops, goodOp op = true)
    (hlen : ops.length < memTableSizeThreshold) :
    (lsmGet (applyWrites ops (initState d)).1 (applyWrites ops (initState d)).2 key).1 =
      (lsmGet (lsmRecover (newLSMTree d) (applyWrites ops (initState d)).2).2.1
        (lsmRecover (newLSMTree d) (applyWrites ops (initState d)).2).2.2 key).1 ∧
    (lsmList (applyWrites ops (initState d)).1 (applyWrites ops (initState d)).2).1 =
      (lsmList (lsmRecover (newLSMTree d) (applyWrites ops (initState d)).2).2.1
        (lsmRecover (newLSMTree d) (applyWrites ops (initState d)).2).2.2).1 := by
  have hinv : EngInv d (0 + ops.length) (applyWrites ops (initState d)) :=
    applyWrites_inv d ops 0 (initState d) (EngInv_init d) hgood (by omega)
  obtain ⟨fs', hrec2⟩ :=
    lsmRecover_components (newLSMTree d) (applyWrites ops (initState d)).2
      hinv.hshort
  have hparse : walParse
      (osRead (applyWrites ops (initState d)).2 (pathJoin d "wal.log")) =
      (applyWrites ops (initState d)).1.memTable := hinv.hrec
  have hnodup : ((applyWrites ops (initState d)).1.memTable.map Prod.fst).Nodup := by
    rw [← hparse]
    exact nodup_keys_walParse _
  have hfold : ((walParse (osRead (applyWrites ops (initState d)).2
        (newLSMTree d).wal.filePath)).foldl
        (fun m kv => insertA m kv.1 kv.2) (newLSMTree d).memTable) =
      (applyWrites ops (initState d)).1.memTable := by
    show ((walParse (osRead (applyWrites ops (initState d)).2
        (pathJoin d "wal.log"))).foldl
        (fun m kv => insertA m kv.1 kv.2) []) =
      (applyWrites ops (initState d)).1.memTable
    rw [hparse]
    exact foldl_insertA_self _ hnodup
  have hcoh3 : ∀ k e, lookupA ({ newLSMTree d with
        memTable := ((walParse (osRead (applyWrites ops (initState d)).2
          (newLSMTree d).wal.filePath)).foldl
          (fun m kv => insertA m kv.1 kv.2) (newLSMTree d).memTable) } :
        LSMTree).cache.entries k = some e →
      lookupA ({ newLSMTree d with
        memTable := ((walParse (osRead (applyWrites ops (initState d)).2
          (newLSMTree d).wal.filePath)).foldl
          (fun m kv => insertA m kv.1 kv.2) (newLSMTree d).memTable) } :
        LSMTree).memTable k = some e.value := by
    intro k e he
    exact Option.noConfusion he
  constructor
  · rw [hrec2]
    rw [lsmGet_val (applyWrites ops (initState d)) key hinv.hsst hinv.hcoh]
    rw [show (({ newLSMTree d with
        memTable := ((walParse (osRead (applyWrites ops (initState d)).2
          (newLSMTree d).wal.filePath)).foldl
          (fun m kv => insertA m kv.1 kv.2) (newLSMTree d).memTable) } :
        LSMTree), fs').1 = ({ newLSMTree d with
        memTable := ((walParse (osRead (applyWrites ops (initState d)).2
          (newLSMTree d).wal.filePath)).foldl
          (fun m kv => insertA m kv.1 kv.2) (newLSMTree d).memTable) } :
        LSMTree) from rfl]
    rw [lsmGet_val (({ newLSMTree d with
        memTable := ((walParse (osRead (applyWrites ops (initState d)).2
          (newLSMTree d).wal.filePath)).foldl
          (fun m kv => insertA m kv.1 kv.2) (newLSMTree d).memTable) } :
        LSMTree), fs') key rfl hcoh3]
    rw [show ({ newLSMTree d with
        memTable := ((walParse (osRead (applyWrites ops (initState d)).2
          (newLSMTree d).wal.filePath)).foldl
          (fun m kv => insertA m kv.1 kv.2) (newLSMTree d).memTable) } :
        LSMTree).memTable = ((walParse (osRead (applyWrites ops (initState d)).2
          (newLSMTree d).wal.filePath)).foldl
          (fun m kv => insertA m kv.1 kv.2) (newLSMTree d).memTable) from rfl]
    rw [hfold]
  · rw [hrec2]
    rw [lsmList_val (applyWrites ops (initState d)) hinv.hsst]
    rw [lsmList_val (({ newLSMTree d with
        memTable := ((walParse (osRead (applyWrites ops (initState d)).2
          (newLSMTree d).wal.filePath)).foldl
          (fun m kv => insertA m kv.1 kv.2) (newLSMTree d).memTable) } :
        LSMTree), fs') rfl]
    rw [show ({ newLSMTree d with
        memTable := ((walParse (osRead (applyWrites ops (initState d)).2
          (newLSMTree d).wal.filePath)).foldl
          (fun m kv => insertA m kv.1 kv.2) (newLSMTree d).memTable) } :
        LSMTree).memTable = ((walParse (osRead (applyWrites ops (initState d)).2
          (newLSMTree d).wal.filePath)).foldl
          (fun m kv => insertA m kv.1 kv.2) (newLSMTree d).memTable) from rfl]
    rw [hfold]

/-- The engine after the single write `Set("k", "a\nb")` (the value
contains a newline). -/
def c3pre : LSMTree × FS := applyWrites [WriteOp.setW "k" "a\nb"] (initState "d")

/-- `c3pre` after a restart (fresh engine, same directory) and `Recover`. -/
def c3post : LSMTree × FS := (lsmRecover (newLSMTree "d") c3pre.2).2

/-- Claim C3 counterexample.  With a newline inside the value, `Get("k")`
returns `"a\nb"` before the restart but `"a"` after restart + `Recover`:
the WAL line `k,a\nb\n` is replayed as the line `k,a` (and a dangling
line `b`), so the round trip fails for values the line format cannot
represent. -/
theorem wal_round_trip_counterexample :
    (lsmGet c3pre.1 c3pre.2 "k").1 = Except.ok "a\nb" ∧
    (lsmGet c3post.1 c3post.2 "k").1 = Except.ok "a" ∧
    (Except.ok "a\nb" : Except String String) ≠ Except.ok "a" :=
  ⟨rfl, rfl, fun h => absurd (Except.ok.inj h) (by decide)⟩

/-- Witness for the amended claim C3: one representable write, restarted
and recovered. -/
theorem wal_round_trip_witness :
    (∀ op ∈ [WriteOp.setW "k" "v"], goodOp op = true) ∧
    [WriteOp.setW "k" "v"].length < memTableSizeThreshold ∧
    ((lsmGet (applyWrites [WriteOp.setW "k" "v"] (initState "d")).1
        (applyWrites [WriteOp.setW "k" "v"] (initState "d")).2 "k").1 =
      (lsmGet
        (lsmRecover (newLSMTree "d")
          (applyWrites [WriteOp.setW "k" "v"] (initState "d")).2).2.1
        (lsmRecover (newLSMTree "d")
          (applyWrites [WriteOp.setW "k" "v"] (initState "d")).2).2.2 "k").1 ∧
     (lsmList (applyWrites [WriteOp.setW "k" "v"] (initState "d")).1
        (applyWrites [WriteOp.setW "k" "v"] (initState "d")).2).1 =
      (lsmList
        (lsmRecover (newLSMTree "d")
          (applyWrites [WriteOp.setW "k" "v"] (initState "d")).2).2.1
        (lsmRecover (newLSMTree "d")
          (applyWrites [WriteOp.setW "k" "v"] (initState "d")).2).2.2).1) :=
  ⟨by decide, by decide,
    wal_round_trip "d" [WriteOp.setW "k" "v"] "k" (by decide) (by decide)⟩

/-! ### Claim C1: read-your-writes with flushed tombstones

The failing execution: `Set("k","x")`; flush; `Set("k","")` (the
tombstone); flush; then 1000 writes to 1000 fresh keys.  The 1000th
fresh-key insertion evicts `k` (access count 1, first in iteration
order) from the recency cache; the final `Get("k")` then misses the
cache and the empty buffer, reads the tombstone line `k,` from the newer
segment — which the cascade treats as "not found" — and returns the
value `"x"` from the older segment, although the last write to `k` was
the tombstone. -/

/-- The engine after `Set("k","x")`; flush; `Set("k","")`; flush: the
value in the older segment, the tombstone in the newer one, the buffer
empty, and `k ↦ ""` still cached. -/
def c1base : LSMTree × FS :=
  applyOps [LsmOp.set "k" "x", LsmOp.flush, LsmOp.set "k" "", LsmOp.flush]
    (initState "d")

/-- The `i`-th filler key: `i + 1` copies of `a` (distinct from each
other and from `"k"`). -/
def fillerKey (i : Nat) : String := ofData (List.replicate (i + 1) 'a')

/-- `n` writes to `n` distinct fresh keys. -/
def fillerOps (n : Nat) : List LsmOp :=
  (List.range n).map (fun i => LsmOp.set (fillerKey i) "v")

/-- The older segment of `c1base` (holding `k ↦ "x"`). -/
def c1sst0 : SSTable :=
  c1base.1.ssTables.headD { filePath := "", bloomFilter := newBloomFilter, index := [] }

/-- The newer segment of `c1base` (holding the tombstone entry `k ↦ ""`). -/
def c1sst1 : SSTable :=
  (c1base.1.ssTables.drop 1).headD
    { filePath := "", bloomFilter := newBloomFilter, index := [] }

theorem fillerKey_inj {i j : Nat} (h : fillerKey i = fillerKey j) : i = j := by
  have hd : List.replicate (i + 1) 'a' = List.replicate (j + 1) 'a' :=
    congrArg String.data h
  have hl := congrArg List.length hd
  simp only [List.length_replicate] at hl
  omega

theorem fillerKey_ne_k (i : Nat) : fillerKey i ≠ "k" := by
  intro h
  have hd := congrArg String.data h
  have hm : 'k' ∈ List.replicate (i + 1) 'a' := by
    rw [show (List.replicate (i + 1) 'a') = ("k" : String).data from hd]
    simp [show ("k" : String).data = ['k'] from rfl]
  exact absurd (List.eq_of_mem_replicate hm) (by decide)

theorem k_not_mem_fillers (j : Nat) : "k" ∉ (List.range j).map fillerKey := by
  intro hm
  obtain ⟨i, _, hi⟩ := List.mem_map.mp hm
  exact fillerKey_ne_k i hi

theorem fillerKey_not_mem (j : Nat) :
    fillerKey j ∉ (List.range j).map fillerKey := by
  intro hm
  obtain ⟨i, hir, hi⟩ := List.mem_map.mp hm
  rw [fillerKey_inj hi] at hir
  exact absurd (List.mem_range.mp hir) (lt_irrefl j)

/-- The invariant along the 1000 filler writes applied to `c1base`. -/
structure FillInv (j : Nat) (s : LSMTree × FS) : Prop where
  hcacheE : s.1.cache.entries =
    ("k", { value := "", timestamp := 0 }) ::
      (List.range j).map (fun i => (fillerKey i, ({ value := "v", timestamp := 0 } : CacheEntry)))
  hcacheC : s.1.cache.accessCount =
    ("k", 1) :: (List.range j).map (fun i => (fillerKey i, 1))
  hcacheM : s.1.cache.maxSize = 1000
  hmem : s.1.memTable = (List.range j).map (fun i => (fillerKey i, "v"))
  hsst : s.1.ssTables = [c1sst0, c1sst1]
  hwal : s.1.wal = newWAL "d"
  hwalfile : (osRead s.2 (pathJoin "d" "wal.log")).isSome = true
  hp0 : osRead s.2 "d/sstable_0.dat" = some "k,x\n"
  hp1 : osRead s.2 "d/sstable_1.dat" = some "k,\n"

theorem fillInv_base : FillInv 0 c1base := by
  refine ⟨rfl, rfl, rfl, rfl, rfl, rfl, rfl, rfl, rfl⟩

theorem lookupA_fillers_none {α : Type} (j : Nat) (f : Nat → α) :
    lookupA ((List.range j).map (fun i => (fillerKey i, f i))) (fillerKey j) = none := by
  rw [lookupA_none_iff]
  intro hm
  apply fillerKey_not_mem j
  have : (List.map Prod.fst ((List.range j).map (fun i => (fillerKey i, f i))))
      = (List.range j).map fillerKey := by
    rw [List.map_map]
    rfl
  rwa [this] at hm

theorem fillInv_step (j : Nat) (hj : j < 999) (s : LSMTree × FS)
    (h : FillInv j s) :
    FillInv (j + 1) (applyOp s (LsmOp.set (fillerKey j) "v")) := by
  obtain ⟨w, hw⟩ := Option.isSome_iff_exists.mp h.hwalfile
  have hpath : s.1.wal.filePath = pathJoin "d" "wal.log" := by
    rw [h.hwal]
    rfl
  have hlook : lookupA s.2.files s.1.wal.filePath = some w := by
    rw [hpath]
    exact hw
  have hlog : walLog s.1.wal s.2 (fillerKey j) "v" = Except.ok
      { s.2 with files := (insertA s.2.files s.1.wal.filePath
          (w ++ (fillerKey j ++ "," ++ "v" ++ "\n"))) } := by
    unfold walLog osAppend
    rw [hlook]
  have hne_k : ¬ ("k" = fillerKey j) := fun he => fillerKey_ne_k j he.symm
  have hmemlookup : lookupA s.1.memTable (fillerKey j) = none := by
    rw [h.hmem]
    exact lookupA_fillers_none j _
  have hmemnew : insertA s.1.memTable (fillerKey j) "v"
      = (List.range (j + 1)).map (fun i => (fillerKey i, "v")) := by
    rw [insertA_eq_append _ _ _ hmemlookup, h.hmem, List.range_succ, List.map_append]
    rfl
  have hclen : s.1.cache.entries.length = 1 + j := by
    rw [h.hcacheE]
    simp [Nat.add_comm]
  have hnoevict : ¬ (s.1.cache.maxSize ≤ s.1.cache.entries.length) := by
    rw [h.hcacheM, hclen]
    omega
  have hcacheE' : (cacheSet s.1.cache (fillerKey j) "v").entries
      = ("k", ({ value := "", timestamp := 0 } : CacheEntry)) ::
        (List.range (j + 1)).map
          (fun i => (fillerKey i, ({ value := "v", timestamp := 0 } : CacheEntry))) := by
    have : (cacheSet s.1.cache (fillerKey j) "v").entries
        = insertA s.1.cache.entries (fillerKey j) { value := "v", timestamp := 0 } := by
      simp only [cacheSet, if_neg hnoevict]
    rw [this, h.hcacheE]
    simp only [insertA, if_neg hne_k]
    rw [insertA_eq_append _ _ _ (lookupA_fillers_none j _), List.range_succ,
      List.map_append]
    rfl
  have hcacheC' : (cacheSet s.1.cache (fillerKey j) "v").accessCount
      = ("k", 1) :: (List.range (j + 1)).map (fun i => (fillerKey i, 1)) := by
    have : (cacheSet s.1.cache (fillerKey j) "v").accessCount
        = insertA s.1.cache.accessCount (fillerKey j) 1 := by
      simp only [cacheSet, if_neg hnoevict]
    rw [this, h.hcacheC]
    simp only [insertA, if_neg hne_k]
    rw [insertA_eq_append _ _ _ (lookupA_fillers_none j _), List.range_succ,
      List.map_append]
    rfl
  have hmlen : (insertA s.1.memTable (fillerKey j) "v").length = j + 1 := by
    rw [hmemnew]
    simp
  have hnoflush :
      ¬ (memTableSizeThreshold ≤ (insertA s.1.memTable (fillerKey j) "v").length) := by
    rw [hmlen]
    unfold memTableSizeThreshold
    omega
  have hres : (lsmSet s.1 s.2 (fillerKey j) "v").2 =
      ({ s.1 with memTable := insertA s.1.memTable (fillerKey j) "v",
                  cache := cacheSet s.1.cache (fillerKey j) "v" },
       { s.2 with files := (insertA s.2.files s.1.wal.filePath
          (w ++ (fillerKey j ++ "," ++ "v" ++ "\n"))) }) := by
    unfold lsmSet
    rw [hlog]
    simp only [if_neg hnoflush]
  show FillInv (j + 1) (lsmSet s.1 s.2 (fillerKey j) "v").2
  rw [hres]
  have hwne0 : ("d/sstable_0.dat" : String) ≠ s.1.wal.filePath := by
    rw [hpath]
    decide
  have hwne1 : ("d/sstable_1.dat" : String) ≠ s.1.wal.filePath := by
    rw [hpath]
    decide
  refine ⟨hcacheE', hcacheC', ?_, hmemnew, h.hsst, h.hwal, ?_, ?_, ?_⟩
  · have : (cacheSet s.1.cache (fillerKey j) "v").maxSize = s.1.cache.maxSize :=
      cacheSet_maxSize _ _ _
    rw [this, h.hcacheM]
  · show (lookupA (insertA s.2.files s.1.wal.filePath
        (w ++ (fillerKey j ++ "," ++ "v" ++ "\n"))) (pathJoin "d" "wal.log")).isSome = true
    rw [← hpath, lookupA_insertA_self]
    rfl
  · show lookupA (insertA s.2.files s.1.wal.filePath
        (w ++ (fillerKey j ++ "," ++ "v" ++ "\n"))) "d/sstable_0.dat" = some "k,x\n"
    rw [lookupA_insertA_ne _ _ _ _ hwne0]
    exact h.hp0
  · show lookupA (insertA s.2.files s.1.wal.filePath
        (w ++ (fillerKey j ++ "," ++ "v" ++ "\n"))) "d/sstable_1.dat" = some "k,\n"
    rw [lookupA_insertA_ne _ _ _ _ hwne1]
    exact h.hp1

theorem fillInv_all (j : Nat) (hj : j ≤ 999) :
    FillInv j (applyOps (fillerOps j) c1base) := by
  induction j with
  | zero => exact fillInv_base
  | succ i ih =>
    have hi : i < 999 := by omega
    have hprev := ih (by omega)
    have hsplit : fillerOps (i + 1) = fillerOps i ++ [LsmOp.set (fillerKey i) "v"] := by
      unfold fillerOps
      rw [List.range_succ, List.map_append]
      rfl
    rw [hsplit]
    unfold applyOps
    rw [List.foldl_append]
    exact fillInv_step i hi _ hprev

theorem minKeyA_cons_of_min (k0 : String) (c0 : Nat) (l : List (String × Nat))
    (h : ∀ p ∈ l, ¬ p.2 < c0) : minKeyA ((k0, c0) :: l) = some (k0, c0) := by
  have hgen : ∀ t : List (String × Nat), (∀ p ∈ t, ¬ p.2 < c0) →
      (t.foldl
        (fun best p =>
          match best with
          | none => some p
          | some q => if p.2 < q.2 then some p else best) (some (k0, c0)))
        = some (k0, c0) := by
    intro t
    induction t with
    | nil => intro _; rfl
    | cons p rest ih =>
      intro hall
      simp only [List.foldl_cons, if_neg (hall p (by simp))]
      exact ih (fun q hq => hall q (by simp [hq]))
  show ((k0, c0) :: l).foldl _ none = some (k0, c0)
  simp only [List.foldl_cons]
  exact hgen l h

theorem fillInv_final (s : LSMTree × FS) (h : FillInv 999 s) :
    lookupA (applyOp s (LsmOp.set (fillerKey 999) "v")).1.cache.entries "k" = none ∧
    lookupA (applyOp s (LsmOp.set (fillerKey 999) "v")).1.memTable "k" = none ∧
    (applyOp s (LsmOp.set (fillerKey 999) "v")).1.ssTables = [c1sst0, c1sst1] ∧
    osRead (applyOp s (LsmOp.set (fillerKey 999) "v")).2 "d/sstable_0.dat"
      = some "k,x\n" ∧
    osRead (applyOp s (LsmOp.set (fillerKey 999) "v")).2 "d/sstable_1.dat"
      = some "k,\n" := by
  obtain ⟨w, hw⟩ := Option.isSome_iff_exists.mp h.hwalfile
  have hpath : s.1.wal.filePath = pathJoin "d" "wal.log" := by
    rw [h.hwal]
    rfl
  have hlook : lookupA s.2.files s.1.wal.filePath = some w := by
    rw [hpath]
    exact hw
  have hlog : walLog s.1.wal s.2 (fillerKey 999) "v" = Except.ok
      { s.2 with files := (insertA s.2.files s.1.wal.filePath
          (w ++ (fillerKey 999 ++ "," ++ "v" ++ "\n"))) } := by
    unfold walLog osAppend
    rw [hlook]
  have hne_k : ¬ ("k" = fillerKey 999) := fun he => fillerKey_ne_k 999 he.symm
  have hmemlookup : lookupA s.1.memTable (fillerKey 999) = none := by
    rw [h.hmem]
    exact lookupA_fillers_none 999 _
  have hmemnew : insertA s.1.memTable (fillerKey 999) "v"
      = (List.range 1000).map (fun i => (fillerKey i, "v")) := by
    rw [insertA_eq_append _ _ _ hmemlookup, h.hmem,
      show List.range 1000 = List.range 999 ++ [999] from List.range_succ 999,
      List.map_append]
    rfl
  have hclen : s.1.cache.entries.length = 1000 := by
    rw [h.hcacheE]
    simp
  have hevict : s.1.cache.maxSize ≤ s.1.cache.entries.length := by
    rw [h.hcacheM, hclen]
  have hmin : minKeyA s.1.cache.accessCount = some ("k", 1) := by
    rw [h.hcacheC]
    apply minKeyA_cons_of_min
    intro p hp
    obtain ⟨i, _, hi⟩ := List.mem_map.mp hp
    rw [← hi]
    omega
  have hevE : (cacheEvict s.1.cache).entries =
      (List.range 999).map
        (fun i => (fillerKey i, ({ value := "v", timestamp := 0 } : CacheEntry))) := by
    unfold cacheEvict
    rw [hmin]
    simp only
    rw [h.hcacheE]
    simp [eraseA]
  have hevC : (cacheEvict s.1.cache).accessCount =
      (List.range 999).map (fun i => (fillerKey i, 1)) := by
    unfold cacheEvict
    rw [hmin]
    simp only
    rw [h.hcacheC]
    simp [eraseA]
  have hcacheE' : (cacheSet s.1.cache (fillerKey 999) "v").entries
      = (List.range 999).map
          (fun i => (fillerKey i, ({ value := "v", timestamp := 0 } : CacheEntry)))
        ++ [(fillerKey 999, ({ value := "v", timestamp := 0 } : CacheEntry))] := by
    have hstep : (cacheSet s.1.cache (fillerKey 999) "v").entries
        = insertA (cacheEvict s.1.cache).entries (fillerKey 999)
            { value := "v", timestamp := 0 } := by
      simp only [cacheSet, if_pos hevict]
    rw [hstep, hevE, insertA_eq_append _ _ _ (lookupA_fillers_none 999 _)]
  have hmlen : (insertA s.1.memTable (fillerKey 999) "v").length = 1000 := by
    rw [hmemnew]
    simp
  have hnoflush :
      ¬ (memTableSizeThreshold ≤ (insertA s.1.memTable (fillerKey 999) "v").length) := by
    rw [hmlen]
    unfold memTableSizeThreshold
    omega
  have hres : (lsmSet s.1 s.2 (fillerKey 999) "v").2 =
      ({ s.1 with memTable := insertA s.1.memTable (fillerKey 999) "v",
                  cache := cacheSet s.1.cache (fillerKey 999) "v" },
       { s.2 with files := (insertA s.2.files s.1.wal.filePath
          (w ++ (fillerKey 999 ++ "," ++ "v" ++ "\n"))) }) := by
    unfold lsmSet
    rw [hlog]
    simp only [if_neg hnoflush]
  show _ ∧ _ ∧ _ ∧ _ ∧ _
  rw [show applyOp s (LsmOp.set (fillerKey 999) "v") = (lsmSet s.1 s.2 (fillerKey 999) "v").2
    from rfl, hres]
  have hwne0 : ("d/sstable_0.dat" : String) ≠ s.1.wal.filePath := by
    rw [hpath]
    decide
  have hwne1 : ("d/sstable_1.dat" : String) ≠ s.1.wal.filePath := by
    rw [hpath]
    decide
  refine ⟨?_, ?_, h.hsst, ?_, ?_⟩
  · show lookupA (cacheSet s.1.cache (fillerKey 999) "v").entries "k" = none
    rw [hcacheE', lookupA_none_iff]
    intro hm
    apply k_not_mem_fillers 1000
    rw [show List.range 1000 = List.range 999 ++ [999] from List.range_succ 999,
      List.map_append]
    simpa using hm
  · show lookupA (insertA s.1.memTable (fillerKey 999) "v") "k" = none
    rw [hmemnew, lookupA_none_iff]
    intro hm
    apply k_not_mem_fillers 1000
    have : (List.map Prod.fst ((List.range 1000).map (fun i => (fillerKey i, "v"))))
        = (List.range 1000).map fillerKey := by
      rw [List.map_map]
      rfl
    rwa [this] at hm
  · show lookupA (insertA s.2.files s.1.wal.filePath
        (w ++ (fillerKey 999 ++ "," ++ "v" ++ "\n"))) "d/sstable_0.dat" = some "k,x\n"
    rw [lookupA_insertA_ne _ _ _ _ hwne0]
    exact h.hp0
  · show lookupA (insertA s.2.files s.1.wal.filePath
        (w ++ (fillerKey 999 ++ "," ++ "v" ++ "\n"))) "d/sstable_1.dat" = some "k,\n"
    rw [lookupA_insertA_ne _ _ _ _ hwne1]
    exact h.hp1

theorem sstGet_of_read (s : SSTable) (fs : FS) (key : String) (off : Nat)
    (content : String)
    (hbf : bfMightContain s.bloomFilter key = true)
    (hidx : lookupA s.index key = some off)
    (hread : osRead fs s.filePath = some content) :
    sstGet s fs key =
      (if content.data.drop off = [] ∨
          maxScanTokenSize ≤
            ((content.data.drop off).takeWhile (fun c => c ≠ '\n')).length
       then Except.ok ""
       else
        match splitN2 (ofData (dropCR
            ((content.data.drop off).takeWhile (fun c => c ≠ '\n')))) with
        | [k', v] => if k' = key then Except.ok v else Except.ok ""
        | _ => Except.ok "") := by
  unfold sstGet
  rw [hbf, hidx, hread]
  rfl


theorem sstCascade_cons_skip (fs : FS) (key : String) (s : SSTable)
    (rest : List SSTable) (h : sstGet s fs key = Except.ok "") :
    sstCascade fs key (s :: rest) = sstCascade fs key rest := by
  show (match sstGet s fs key with
    | Except.error e => Except.error ("failed to get value from SSTable: " ++ e)
    | Except.ok v => if v = "" then sstCascade fs key rest else Except.ok v)
    = sstCascade fs key rest
  rw [h]
  rfl

theorem sstCascade_cons_hit (fs : FS) (key : String) (s : SSTable)
    (rest : List SSTable) (v : String) (h : sstGet s fs key = Except.ok v)
    (hv : v ≠ "") : sstCascade fs key (s :: rest) = Except.ok v := by
  show (match sstGet s fs key with
    | Except.error e => Except.error ("failed to get value from SSTable: " ++ e)
    | Except.ok v => if v = "" then sstCascade fs key rest else Except.ok v)
    = Except.ok v
  rw [h]
  simp only [if_neg hv]

theorem cacheGet_fst_none (c : Cache) (k : String)
    (h : lookupA c.entries k = none) : (cacheGet c k).1 = none := by
  unfold cacheGet
  rw [h]

theorem applyOps_append (a b : List LsmOp) (s : LSMTree × FS) :
    applyOps (a ++ b) s = applyOps b (applyOps a s) := by
  unfold applyOps
  rw [List.foldl_append]

theorem applyOps_snoc (a : List LsmOp) (op : LsmOp) (s : LSMTree × FS) :
    applyOps (a ++ [op]) s = applyOp (applyOps a s) op := by
  unfold applyOps
  rw [List.foldl_append]
  rfl

theorem fillerOps_split (n : Nat) :
    fillerOps (n + 1) = fillerOps n ++ [LsmOp.set (fillerKey n) "v"] := by
  unfold fillerOps
  rw [List.range_succ n, List.map_append]
  rfl

/-- Claim C1 (code bug).  Read-your-writes fails once a tombstone has
been flushed into a segment and its key evicted from the recency cache:
in the trace `Set("k","x")`; flush; `Set("k","")`; flush; then 1000
writes to 1000 fresh keys (which evict `k` from the cache), the final
`Get("k")` returns the resurrected old value `"x"` although the last
write to `"k"` was the tombstone `Set("k","")`. -/
theorem read_your_writes_tombstone_violated :
    (lsmGet
      (applyOps ([LsmOp.set "k" "x", LsmOp.flush, LsmOp.set "k" "", LsmOp.flush]
        ++ fillerOps 1000) (initState "d")).1
      (applyOps ([LsmOp.set "k" "x", LsmOp.flush, LsmOp.set "k" "", LsmOp.flush]
        ++ fillerOps 1000) (initState "d")).2 "k").1 = Except.ok "x" ∧
    ("x" : String) ≠ "" := by
  refine ⟨?_, by decide⟩
  have happ : applyOps ([LsmOp.set "k" "x", LsmOp.flush, LsmOp.set "k" "", LsmOp.flush]
      ++ fillerOps 1000) (initState "d")
      = applyOp (applyOps (fillerOps 999) c1base) (LsmOp.set (fillerKey 999) "v") := by
    rw [applyOps_append, fillerOps_split 999, applyOps_snoc]
    rfl
  rw [happ]
  obtain ⟨hc, hm, hs, h0, h1⟩ := fillInv_final (applyOps (fillerOps 999) c1base)
    (fillInv_all 999 (by omega))
  have hcg : (cacheGet (applyOp (applyOps (fillerOps 999) c1base)
      (LsmOp.set (fillerKey 999) "v")).1.cache "k").1 = none :=
    cacheGet_fst_none _ _ hc
  rw [lsmGet_cache_miss _ _ _ hcg, hm]
  have hrev : (applyOp (applyOps (fillerOps 999) c1base)
      (LsmOp.set (fillerKey 999) "v")).1.ssTables.reverse = [c1sst1, c1sst0] := by
    rw [hs]
    rfl
  rw [hrev]
  have hg1 : sstGet c1sst1 (applyOp (applyOps (fillerOps 999) c1base)
      (LsmOp.set (fillerKey 999) "v")).2 "k" = Except.ok "" := by
    rw [sstGet_of_read c1sst1 _ "k" 0 "k,\n" (by rfl) (by rfl) h1]
    rfl
  have hg0 : sstGet c1sst0 (applyOp (applyOps (fillerOps 999) c1base)
      (LsmOp.set (fillerKey 999) "v")).2 "k" = Except.ok "x" := by
    rw [sstGet_of_read c1sst0 _ "k" 0 "k,x\n" (by rfl) (by rfl) h0]
    rfl
  have hcas : sstCascade (applyOp (applyOps (fillerOps 999) c1base)
      (LsmOp.set (fillerKey 999) "v")).2 "k" [c1sst1, c1sst0] = Except.ok "x" :=
    (sstCascade_cons_skip _ "k" c1sst1 [c1sst0] hg1).trans
      (sstCascade_cons_hit _ "k" c1sst0 [] "x" hg0 (by decide))
  rw [hcas]
  rfl
